import Mathlib

/-!
Verification development for the JSON Visual Editor (React/TypeScript).

The definitions below are a shallow embedding of the source files:
  * `src/App.tsx` (text↔value synchronization, `updateDataFromTree`),
  * `src/components/TreeView.tsx` (`flattenJson`, `parseInputValue`,
    `commitChange`, the `Node` expansion default, `visibleNodes`),
  * `src/components/TextView.tsx` (the AJV validation cycle).

JavaScript runtime primitives used by that code (`Number(string)`,
`String(number)`, `JSON.parse`, `String.prototype.trim`, property reads and
writes on objects and arrays in strict mode, and the structural-sharing
update performed through immer) are modelled explicitly; every such model
carries a doc comment saying which primitive it stands for and which
fragment of its behaviour is covered.
-/

/-! ## Path segments -/

/-- A path segment as produced by `flattenJson`: object children get their
string key, array children get `parseInt(key)`, a natural index. -/
inductive Seg where
  | key (s : String)
  | idx (n : Nat)
deriving DecidableEq, Repr

/-! ## JavaScript values

The document state (`data` in `App.tsx`) is an arbitrary value produced by
`JSON.parse` or by tree edits.  Numbers are modelled as NaN, signed
infinity, or an exact rational (no floating-point rounding; every value the
editor actually manipulates is a decimal literal, which the rational model
represents exactly). -/

/-- Exact model of a finite JavaScript number as a scaled decimal: the
value `num / 10 ^ den10`.  Every IEEE double is such a rational (no
floating-point rounding is modelled; every value the editor manipulates
is a decimal literal, represented exactly).  Parsers return canonical
values (see `DecNum.canon`), so structural equality coincides with
numeric equality on everything the code produces. -/
structure DecNum where
  num : Int
  den10 : Nat
deriving DecidableEq, Repr

/-- Strip shared factors of ten: while the scale is positive and the
mantissa is divisible by ten, divide both. -/
def canonAux : Nat → Int → Nat → Int × Nat
  | 0, n, k => (n, k)
  | f + 1, n, k => if k ≠ 0 ∧ n % 10 = 0 then canonAux f (n / 10) (k - 1) else (n, k)

/-- Canonical form of a scaled decimal: zero is `(0, 0)`; otherwise
trailing zero decimals are stripped.  This is the collapse the JavaScript
number line performs (`Number("5.0")` is the same double as `5`). -/
def DecNum.canon (d : DecNum) : DecNum :=
  if d.num = 0 then ⟨0, 0⟩
  else ⟨(canonAux d.den10 d.num d.den10).1, (canonAux d.den10 d.num d.den10).2⟩

/-- Model of a JavaScript number: NaN, positive or negative Infinity, or
a finite value (an exact scaled decimal). -/
inductive JSNum where
  | nan
  | inf (neg : Bool)
  | fin (d : DecNum)
deriving DecidableEq, Repr

/-- `isNaN(n)` for a `JSNum`. -/
def JSNum.isNaN : JSNum → Bool
  | .nan => true
  | _ => false

/-- Model of a JavaScript value as manipulated by the editor: the JSON
value universe, with numbers as `JSNum`.  Objects keep their properties in
enumeration order. -/
inductive JVal where
  | null
  | bool (b : Bool)
  | num (n : JSNum)
  | str (s : String)
  | obj (fields : List (String × JVal))
  | arr (items : List JVal)
deriving Repr

/-! ## Digit strings

Helpers shared by the models of `Number(string)`, `String(number)` and
`JSON.parse`.  All are fuel-free structural recursions on lists of
characters so that concrete witnesses evaluate by `decide`/`rfl`. -/

/-- The character for a decimal digit `d < 10`. -/
def digitChar (d : Nat) : Char := Char.ofNat (48 + d)

/-- `true` for the ASCII characters 0-9. -/
def isDigitChar (c : Char) : Bool := 48 ≤ c.toNat && c.toNat ≤ 57

/-- Little-endian decimal digits of `n`, with explicit fuel (`fuel ≥ n`
suffices); `natDigits 0 = []`. -/
def natDigitsAux : Nat → Nat → List Nat
  | 0, _ => []
  | _ + 1, 0 => []
  | fuel + 1, n => (n % 10) :: natDigitsAux fuel (n / 10)

/-- Little-endian decimal digits of `n` (empty for 0). -/
def natDigits (n : Nat) : List Nat := natDigitsAux n n

/-- Big-endian decimal digit characters of `n`; `"0"` for 0.  This is the
exact output of the JavaScript `String(n)` conversion for a natural
number. -/
def natDigitChars (n : Nat) : List Char :=
  if n = 0 then ['0'] else ((natDigits n).reverse).map digitChar

/-- Model of JavaScript `String(n)` for a natural number `n`. -/
def natToString (n : Nat) : String := ⟨natDigitChars n⟩

/-- Value of a little-endian digit list. -/
def digitsVal : List Nat → Nat
  | [] => 0
  | d :: ds => d + 10 * digitsVal ds

/-- One step of reading a big-endian digit-character list. -/
def chStep (a : Nat) (c : Char) : Nat := 10 * a + (c.toNat - 48)

/-- Numeric value of a big-endian digit-character list. -/
def charsVal (cs : List Char) : Nat := cs.foldl chStep 0

/-- Parse a nonempty all-digit character list; `none` otherwise. -/
def digitsToNat? (cs : List Char) : Option Nat :=
  if cs ≠ [] ∧ cs.all isDigitChar then some (charsVal cs) else none

/-! ## Model of `Number(string)` (ECMAScript StringToNumber)

`parseInputValue` in `TreeView.tsx` calls `Number(trimmed)` on an already
trimmed string.  The model below covers the ECMAScript string numeric
grammar on whitespace-free input: the empty string (0), optionally signed
`Infinity`, optionally signed decimal literals with fraction and exponent,
and unsigned hex / octal / binary literals.  Finite values are exact
rationals (no floating-point rounding). -/

/-- Split a character list at the first character satisfying `p`; `none`
when no character does. -/
def splitFirstPred (p : Char → Bool) : List Char → Option (List Char × List Char)
  | [] => none
  | c :: cs =>
    if p c then some ([], cs)
    else (splitFirstPred p cs).map (fun ab => (c :: ab.1, ab.2))

/-- StrUnsignedDecimalLiteral without exponent: `digits`, `digits.digits`,
`digits.` or `.digits`; the value of `I.F` is `(I * 10^|F| + F) / 10^|F|`. -/
def parseDecMantissa (cs : List Char) : Option DecNum :=
  match splitFirstPred (fun c => c == '.') cs with
  | none => (digitsToNat? cs).map (fun (n : Nat) => (⟨(n : Int), 0⟩ : DecNum))
  | some (I, F) =>
    if I.all isDigitChar ∧ F.all isDigitChar ∧ (I ≠ [] ∨ F ≠ []) then
      some ⟨(charsVal I : Int) * 10 ^ F.length + charsVal F, F.length⟩
    else none

/-- The optionally signed exponent digits after `e`/`E`. -/
def parseExponentPart (cs : List Char) : Option (Bool × Nat) :=
  match cs with
  | '+' :: r => (digitsToNat? r).map (fun n => (false, n))
  | '-' :: r => (digitsToNat? r).map (fun n => (true, n))
  | r => (digitsToNat? r).map (fun n => (false, n))

/-- Scale a decimal by `10 ^ e`, dividing when `neg` is true. -/
def mulPow10 (d : DecNum) (neg : Bool) (e : Nat) : DecNum :=
  if neg then ⟨d.num, d.den10 + e⟩
  else if e ≤ d.den10 then ⟨d.num, d.den10 - e⟩
  else ⟨d.num * 10 ^ (e - d.den10), 0⟩

/-- StrDecimalLiteral: mantissa with an optional `e`/`E` exponent part. -/
def parseStrDecimal (cs : List Char) : Option DecNum :=
  match splitFirstPred (fun c => c == 'e' || c == 'E') cs with
  | none => parseDecMantissa cs
  | some (m, ex) =>
    match parseDecMantissa m, parseExponentPart ex with
    | some q, some se => some (mulPow10 q se.1 se.2)
    | _, _ => none

/-- Value of a hex digit character. -/
def hexDigitVal? (c : Char) : Option Nat :=
  if isDigitChar c then some (c.toNat - 48)
  else if 97 ≤ c.toNat ∧ c.toNat ≤ 102 then some (c.toNat - 87)
  else if 65 ≤ c.toNat ∧ c.toNat ≤ 70 then some (c.toNat - 55)
  else none

/-- Value of an octal digit character. -/
def octDigitVal? (c : Char) : Option Nat :=
  if 48 ≤ c.toNat ∧ c.toNat ≤ 55 then some (c.toNat - 48) else none

/-- Value of a binary digit character. -/
def binDigitVal? (c : Char) : Option Nat :=
  if 48 ≤ c.toNat ∧ c.toNat ≤ 49 then some (c.toNat - 48) else none

/-- Value of a nonempty digit list in the given base. -/
def radixVal? (base : Nat) (digVal : Char → Option Nat) (cs : List Char) : Option Nat :=
  if cs = [] then none
  else cs.foldl (fun acc c => acc.bind (fun a => (digVal c).map (fun d => base * a + d))) (some 0)

/-- The characters of the token `Infinity`. -/
def infinityChars : List Char := ['I', 'n', 'f', 'i', 'n', 'i', 't', 'y']

/-- Negation of a JavaScript number (`-Infinity`, `-NaN = NaN`). -/
def negJS : JSNum → JSNum
  | .nan => .nan
  | .inf b => .inf (!b)
  | .fin d => .fin ⟨-d.num, d.den10⟩

/-- The part of the numeric grammar allowed after a sign: `Infinity` or a
decimal literal (hex, octal and binary literals take no sign). -/
def parseSignable (cs : List Char) : Option JSNum :=
  if cs = infinityChars then some (.inf false)
  else (parseStrDecimal cs).map .fin

/-- The non-`Infinity` part of an unsigned numeric literal: a
`0x`/`0o`/`0b` radix form, else a decimal literal. -/
def parseUnsignedBody : List Char → Option JSNum
  | c0 :: c1 :: rest =>
    if c0 = '0' then
      if c1 = 'x' ∨ c1 = 'X' then (radixVal? 16 hexDigitVal? rest).map (fun (n : Nat) => .fin ⟨(n : Int), 0⟩)
      else if c1 = 'o' ∨ c1 = 'O' then (radixVal? 8 octDigitVal? rest).map (fun (n : Nat) => .fin ⟨(n : Int), 0⟩)
      else if c1 = 'b' ∨ c1 = 'B' then (radixVal? 2 binDigitVal? rest).map (fun (n : Nat) => .fin ⟨(n : Int), 0⟩)
      else (parseStrDecimal (c0 :: c1 :: rest)).map .fin
    else (parseStrDecimal (c0 :: c1 :: rest)).map .fin
  | cs => (parseStrDecimal cs).map .fin

/-- An unsigned numeric literal: `Infinity`, `0x`/`0o`/`0b` forms, or a
decimal literal. -/
def parseUnsigned (cs : List Char) : Option JSNum :=
  if cs = infinityChars then some (.inf false)
  else parseUnsignedBody cs

/-- Put a parsed number on the JavaScript number line (canonical scaled
decimal; NaN and the infinities are untouched). -/
def canonJS : JSNum → JSNum
  | .fin d => .fin d.canon
  | x => x

/-- Model of JavaScript `Number(s)` for a whitespace-free string `s` (the
code always passes a trimmed string): the empty string is 0, otherwise the
string numeric literal grammar, and NaN when the grammar does not match. -/
def jsStringToNumber (s : String) : JSNum :=
  canonJS <|
    match s.toList with
    | [] => .fin ⟨0, 0⟩
    | c :: rest =>
      if c = '+' then (parseSignable rest).getD .nan
      else if c = '-' then ((parseSignable rest).map negJS).getD .nan
      else (parseUnsigned (c :: rest)).getD .nan

/-! ## Model of `String(number)` (ECMAScript Number::toString) -/

/-- Pad a digit list with leading zeros up to length `k`. -/
def padZeros (k : Nat) (cs : List Char) : List Char :=
  List.replicate (k - cs.length) '0' ++ cs

/-- Plain decimal notation of the magnitude `m / 10 ^ k`: the integer
digits and — when the scale is positive — a point followed by exactly `k`
fraction digits. -/
def finToCharsNat (m k : Nat) : List Char :=
  if k = 0 then natDigitChars m
  else natDigitChars (m / 10 ^ k) ++ '.' :: padZeros k (natDigitChars (m % 10 ^ k))

/-- Plain decimal notation of a finite JavaScript number: optional sign
followed by the magnitude.  On canonical values this is the exact output
of the shortest-round-trip printing JavaScript uses; the exponent
notation JavaScript switches to for very large or very small magnitudes
is not modelled (all values the editor handles print plain). -/
def finToChars (d : DecNum) : List Char :=
  (if d.num < 0 then ['-'] else []) ++ finToCharsNat d.num.natAbs d.den10

/-- Model of JavaScript `String(n)` for a number `n`. -/
def jsNumberToString : JSNum → String
  | .nan => "NaN"
  | .inf false => "Infinity"
  | .inf true => "-Infinity"
  | .fin d => ⟨finToChars d⟩

/-! ## `parseInputValue` (TreeView.tsx) -/

/-- The ASCII whitespace characters stripped by `String.prototype.trim`
(the non-ASCII ones in the JavaScript set are not modelled). -/
def isJsWs (c : Char) : Bool :=
  c == ' ' || c == '\t' || c == '\n' || c == '\r' || c == '\x0b' || c == '\x0c'

/-- Model of JavaScript `input.trim()`. -/
def jsTrim (s : String) : String :=
  ⟨((s.toList.dropWhile isJsWs).reverse.dropWhile isJsWs).reverse⟩

/-- The tagged result `{ success, value }` returned by `parseInputValue`. -/
structure ParseResult where
  success : Bool
  value : JVal
deriving Repr

/-- Shallow embedding of `parseInputValue` (TreeView.tsx): keyword
literals, then a quote-wrapped token taken verbatim, then a number token
accepted only when `String(Number(trimmed))` reproduces the trimmed
token.  Always returns a tagged result; the fall-through case is
`{ success: false, value: null }`. -/
def parseInputValue (input : String) : ParseResult :=
  let trimmed := jsTrim input
  let cs := trimmed.toList
  if trimmed = "null" then ⟨true, .null⟩
  else if trimmed = "true" then ⟨true, .bool true⟩
  else if trimmed = "false" then ⟨true, .bool false⟩
  else if cs.head? = some '"' ∧ cs.getLast? = some '"' then ⟨true, .str ⟨(cs.drop 1).dropLast⟩⟩
  else if trimmed ≠ "" ∧ (jsStringToNumber trimmed).isNaN = false ∧
      jsNumberToString (jsStringToNumber trimmed) = trimmed then
    ⟨true, .num (jsStringToNumber trimmed)⟩
  else ⟨false, .null⟩

/-! ## TreeView: flattening (`flattenJson`, TreeView.tsx) -/

/-- The `NodeType` union of TreeView.tsx. -/
inductive NodeType where
  | object | array | string | number | boolean | null
deriving DecidableEq, Repr

/-- `isArray ? 'array' : (value === null ? 'null' : typeof value)`. -/
def nodeTypeOf : JVal → NodeType
  | .arr _ => .array
  | .null => .null
  | .obj _ => .object
  | .num _ => .number
  | .str _ => .string
  | .bool _ => .boolean

/-- `isArray || isObject` in `flattenJson`. -/
def hasChildrenOf : JVal → Bool
  | .arr _ => true
  | .obj _ => true
  | _ => false

/-- `Object.keys(value).length` for composites, 0 otherwise. -/
def childrenCountOf : JVal → Nat
  | .arr xs => xs.length
  | .obj fs => fs.length
  | _ => 0

/-- The string a path segment contributes to `newPath.join('.')` (array
indices are stringified in base 10, as JavaScript does). -/
def segToKey : Seg → String
  | .key s => s
  | .idx n => natToString n

/-- `newPath.join('.')`: the node identifier built by `flattenJson`. -/
def joinPath (p : List Seg) : String :=
  String.intercalate "." (p.map segToKey)

/-- The `FlattenedNode` record of TreeView.tsx. -/
structure FlattenedNode where
  id : String
  depth : Nat
  key : String
  value : JVal
  type : NodeType
  hasChildren : Bool
  childrenCount : Nat
  path : List Seg
deriving Repr

/-- The node record built for one entry `(key, value)` of `flattenJson`. -/
def mkFlatNode (k : String) (v : JVal) (newPath : List Seg) (depth : Nat) : FlattenedNode :=
  { id := joinPath newPath, depth := depth, key := k, value := v, type := nodeTypeOf v,
    hasChildren := hasChildrenOf v, childrenCount := childrenCountOf v, path := newPath }

mutual

/-- Shallow embedding of `flattenJson` (TreeView.tsx): non-composites
produce no rows; a composite produces, for each entry in order, the entry
node followed by the recursive flattening of its value. -/
def flattenJson : JVal → List Seg → Nat → List FlattenedNode
  | .obj fs, path, depth => flattenFields fs path depth
  | .arr xs, path, depth => flattenItems xs 0 path depth
  | _, _, _ => []

/-- `Object.entries` iteration of `flattenJson` over an object. -/
def flattenFields : List (String × JVal) → List Seg → Nat → List FlattenedNode
  | [], _, _ => []
  | (k, v) :: rest, path, depth =>
    (mkFlatNode k v (path ++ [Seg.key k]) depth :: flattenJson v (path ++ [Seg.key k]) (depth + 1))
      ++ flattenFields rest path depth

/-- `Object.entries` iteration of `flattenJson` over an array, with the
running index (array entries get key `String(i)` and segment
`parseInt(key) = i`). -/
def flattenItems : List JVal → Nat → List Seg → Nat → List FlattenedNode
  | [], _, _, _ => []
  | v :: rest, i, path, depth =>
    (mkFlatNode (natToString i) v (path ++ [Seg.idx i]) depth
        :: flattenJson v (path ++ [Seg.idx i]) (depth + 1))
      ++ flattenItems rest (i + 1) path depth

end

/-- `flattenJson({ root: data })`: the `flattenedNodes` memo of TreeView. -/
def flattenedNodes (data : JVal) : List FlattenedNode :=
  flattenJson (.obj [("root", data)]) [] 0

mutual

/-- Total node count of a value: every object, array and leaf counts
once.  This is the measure the spec uses for the flattening length
invariant. -/
def sizeJVal : JVal → Nat
  | .obj fs => 1 + sizeFields fs
  | .arr xs => 1 + sizeItems xs
  | _ => 1

/-- Sum of the node counts of the field values. -/
def sizeFields : List (String × JVal) → Nat
  | [] => 0
  | (_, v) :: rest => sizeJVal v + sizeFields rest

/-- Sum of the node counts of the elements. -/
def sizeItems : List JVal → Nat
  | [] => 0
  | v :: rest => sizeJVal v + sizeItems rest

end

/-! ## TreeView: expansion state and visibility -/

/-- The expansion record `Record<string, boolean>`, modelled as an
association list read by first match (keys are unique in the real
record). -/
def lookupStr (m : List (String × Bool)) (k : String) : Option Bool :=
  m.lookup k

/-- `expanded[node.id] ?? (node.depth === 0)`: the expansion state
consulted by the `Node` row renderer (TreeView.tsx line 400). -/
def isExpanded (expanded : List (String × Bool)) (id : String) (depth : Nat) : Bool :=
  (lookupStr expanded id).getD (depth == 0)

/-- Shallow embedding of the `visibleNodes` memo (TreeView.tsx): keep a
node when its depth is at most 1, otherwise when the entry for its parent
path is present and true (`expanded[parentPath] ?? false`). -/
def visibleNodes (nodes : List FlattenedNode) (expanded : List (String × Bool)) :
    List FlattenedNode :=
  nodes.filter fun node =>
    if node.depth ≤ 1 then true
    else (lookupStr expanded (joinPath node.path.dropLast)).getD false

/-! ## JSON.stringify (compact form, used by `commitChange`) -/

/-- Hexadecimal digit character (lowercase, as in JSON escapes). -/
def hexDigitChar (d : Nat) : Char :=
  if d < 10 then digitChar d else Char.ofNat (87 + d)

/-- JSON string escaping of one character. -/
def escapeJsonChar (c : Char) : List Char :=
  if c = '"' then ['\\', '"']
  else if c = '\\' then ['\\', '\\']
  else if c = '\n' then ['\\', 'n']
  else if c = '\r' then ['\\', 'r']
  else if c = '\t' then ['\\', 't']
  else if c = '\x08' then ['\\', 'b']
  else if c = '\x0c' then ['\\', 'f']
  else if c.toNat < 32 then
    ['\\', 'u', '0', '0', hexDigitChar (c.toNat / 16), hexDigitChar (c.toNat % 16)]
  else [c]

/-- A JSON string literal for `s`. -/
def quoteJson (s : String) : String :=
  ⟨'"' :: ((s.toList.map escapeJsonChar).flatten ++ ['"'])⟩

mutual

/-- Model of compact `JSON.stringify(value)`: numbers print like
`String(number)` except that NaN and the infinities serialize as `null`. -/
def jsonStringify : JVal → String
  | .null => "null"
  | .bool true => "true"
  | .bool false => "false"
  | .num (.fin d) => ⟨finToChars d⟩
  | .num _ => "null"
  | .str s => quoteJson s
  | .obj fs => "\x7b" ++ stringifyFields fs ++ "\x7d"
  | .arr xs => "[" ++ stringifyItems xs ++ "]"

/-- Comma-separated `"key":value` members. -/
def stringifyFields : List (String × JVal) → String
  | [] => ""
  | [(k, v)] => quoteJson k ++ ":" ++ jsonStringify v
  | (k, v) :: rest => quoteJson k ++ ":" ++ jsonStringify v ++ "," ++ stringifyFields rest

/-- Comma-separated array elements. -/
def stringifyItems : List JVal → String
  | [] => ""
  | [v] => jsonStringify v
  | v :: rest => jsonStringify v ++ "," ++ stringifyItems rest

end

/-- Shallow embedding of `commitChange` (TreeView.tsx): parse the edit
string; when parsing succeeds and the serialized value differs from the
serialized current value, emit the update `(node.path.slice(1), value)`;
otherwise emit nothing (the prior value stays untouched and edit mode is
left either way). -/
def commitChange (node : FlattenedNode) (editValue : String) : Option (List Seg × JVal) :=
  let parsed := parseInputValue editValue
  if parsed.success = true ∧ jsonStringify node.value ≠ jsonStringify parsed.value then
    some (node.path.drop 1, parsed.value)
  else none

/-! ## `updateDataFromTree` (App.tsx)

The handler runs, inside `produce`, the strict-mode JavaScript

  if (typeof draft !== 'object' || draft === null) return;
  let current = draft;
  for (let i = 0; i < path.length - 1; i++) current = current[path[i]];
  current[path[path.length - 1]] = value;

immer materializes the mutation as a new value sharing every untouched
subtree.  The embedding below reproduces the observable result: `.ok` with
the new document, or `.error` when the traversal throws a `TypeError`
(reading a property of `null`/`undefined`, or assigning a property of a
primitive in strict mode). -/

/-- A string that is a canonical array index (`"0"`, `"17"`, …), as used
by JavaScript array element access. -/
def parseCanonIdx (s : String) : Option Nat :=
  (digitsToNat? s.toList).bind fun n => if natToString n = s then some n else none

/-- Property read on an object: first (unique) matching key. -/
def objGet (fs : List (String × JVal)) (k : String) : Option JVal :=
  fs.lookup k

/-- Property write on an object: replace in place, else append (JavaScript
keeps the original position of an existing property). -/
def objSet : List (String × JVal) → String → JVal → List (String × JVal)
  | [], k, x => [(k, x)]
  | (k0, v0) :: rest, k, x =>
    if k0 = k then (k0, x) :: rest else (k0, v0) :: objSet rest k x

/-- Array element write `xs[n] = x`: in bounds it replaces; past the end
JavaScript fills with holes, which serialize as `null` (the model stores
nulls directly). -/
def arrSet (xs : List JVal) (n : Nat) (x : JVal) : List JVal :=
  if n < xs.length then xs.set n x
  else xs ++ List.replicate (n - xs.length) .null ++ [x]

/-- Property read `base[seg]` on a composite, as performed both by the
update loop and by path resolution: objects read the string-coerced key,
arrays read a canonical index.  Primitive receivers resolve to nothing. -/
def jsGetVal : JVal → Seg → Option JVal
  | .obj fs, seg => objGet fs (segToKey seg)
  | .arr xs, seg => (parseCanonIdx (segToKey seg)).bind (fun n => xs[n]?)
  | _, _ => none

/-- Resolve a path from a value by repeated property reads. -/
def resolvePath : JVal → List Seg → Option JVal
  | v, [] => some v
  | v, seg :: rest => (jsGetVal v seg).bind (fun c => resolvePath c rest)

/-- The final assignment `current[seg] = x` in strict mode: objects set
the string-coerced property; arrays set a canonical index (extending past
the end with hole-nulls) and ignore a non-index key (an expando property
invisible to JSON serialization); any other receiver throws TypeError. -/
def jsWrite : JVal → Seg → JVal → Except Unit JVal
  | .obj fs, seg, x => .ok (.obj (objSet fs (segToKey seg) x))
  | .arr xs, seg, x =>
    match parseCanonIdx (segToKey seg) with
    | some n => .ok (.arr (arrSet xs n x))
    | none => .ok (.arr xs)
  | _, _, _ => .error ()

/-- The traversal loop plus final write, rebuilt functionally: `cur` is
the current draft node, `seg` the next segment, `rest` the segments after
it.  A read that leaves the composites (missing key, out-of-bounds index,
primitive or null receiver) makes the remaining loop throw, hence
`.error`; immer then rebuilds each container along the path around the
updated child, which the recursive `.map` mirrors. -/
def applyAt : JVal → Seg → List Seg → JVal → Except Unit JVal
  | cur, seg, [], x => jsWrite cur seg x
  | .obj fs, seg, s2 :: rest, x =>
    (match objGet fs (segToKey seg) with
     | some child => (applyAt child s2 rest x).map (fun c => JVal.obj (objSet fs (segToKey seg) c))
     | none => .error ())
  | .arr xs, seg, s2 :: rest, x =>
    (match parseCanonIdx (segToKey seg) with
     | some n =>
       match xs[n]? with
       | some child => (applyAt child s2 rest x).map (fun c => JVal.arr (xs.set n c))
       | none => .error ()
     | none => .error ())
  | _, _, _ :: _, _ => .error ()

/-- Shallow embedding of `updateDataFromTree` (App.tsx).  A non-composite
root makes the recipe return early (`produce` hands back the original); an
empty path assigns `current[undefined]`, i.e. the property named
`"undefined"`; otherwise the loop runs. -/
def updateDataFromTree (data : JVal) (path : List Seg) (value : JVal) : Except Unit JVal :=
  match data, path with
  | .obj _, [] => jsWrite data (Seg.key "undefined") value
  | .arr _, [] => jsWrite data (Seg.key "undefined") value
  | .obj _, seg :: rest => applyAt data seg rest value
  | .arr _, seg :: rest => applyAt data seg rest value
  | _, _ => .ok data

/-- Whether the key list `p` is an initial run of the key list `q`: the
location addressed by `q` lies inside the subtree addressed by `p`.
Paths are compared after the string coercion `segToKey`, which is the
comparison the document operations actually perform (an object property
named `"0"` and an array index `0` alias the same slot). -/
def underKeys (p q : List String) : Bool := decide (q.take p.length = p)

/-- Whether an optional resolved value is a composite (Object or Array). -/
def isCompositeO : Option JVal → Bool
  | some (.obj _) => true
  | some (.arr _) => true
  | _ => false

/-! ## Model of `JSON.parse`

Used by the App.tsx text-synchronization effect and the TextView
validation effect.  Standard JSON grammar (RFC 8259): strict numbers (no
leading zeros, no bare fraction), string escapes including `\uXXXX`
(surrogate halves, which Lean `Char` cannot hold, degrade to NUL — no
claim exercises them), objects keeping textual member order with
last-duplicate-wins in place.  Numbers are exact rationals. -/

/-- The JSON whitespace characters. -/
def isJsonWs (c : Char) : Bool :=
  c == ' ' || c == '\t' || c == '\n' || c == '\r'

/-- Drop leading JSON whitespace. -/
def skipWs (cs : List Char) : List Char := cs.dropWhile isJsonWs

/-- The opening curly bracket character. -/
def openBrace : Char := Char.ofNat 123

/-- The closing curly bracket character. -/
def closeBrace : Char := Char.ofNat 125

/-- Parse a JSON string body after the opening quote: returns the decoded
content and the input after the closing quote. -/
def parseJsonStringAux : Nat → List Char → Option (List Char × List Char)
  | 0, _ => none
  | _ + 1, [] => none
  | fuel + 1, c :: cs =>
    if c = '"' then some ([], cs)
    else if c = '\\' then
      match cs with
      | [] => none
      | e :: cs2 =>
        if e = '"' then (parseJsonStringAux fuel cs2).map (fun p => ('"' :: p.1, p.2))
        else if e = '\\' then (parseJsonStringAux fuel cs2).map (fun p => ('\\' :: p.1, p.2))
        else if e = '/' then (parseJsonStringAux fuel cs2).map (fun p => ('/' :: p.1, p.2))
        else if e = 'b' then (parseJsonStringAux fuel cs2).map (fun p => ('\x08' :: p.1, p.2))
        else if e = 'f' then (parseJsonStringAux fuel cs2).map (fun p => ('\x0c' :: p.1, p.2))
        else if e = 'n' then (parseJsonStringAux fuel cs2).map (fun p => ('\n' :: p.1, p.2))
        else if e = 'r' then (parseJsonStringAux fuel cs2).map (fun p => ('\r' :: p.1, p.2))
        else if e = 't' then (parseJsonStringAux fuel cs2).map (fun p => ('\t' :: p.1, p.2))
        else if e = 'u' then
          match cs2 with
          | h1 :: h2 :: h3 :: h4 :: cs3 =>
            match hexDigitVal? h1, hexDigitVal? h2, hexDigitVal? h3, hexDigitVal? h4 with
            | some a, some b, some c3, some d =>
              (parseJsonStringAux fuel cs3).map
                (fun p => (Char.ofNat (((a * 16 + b) * 16 + c3) * 16 + d) :: p.1, p.2))
            | _, _, _, _ => none
          | _ => none
        else none
    else if c.toNat < 32 then none
    else (parseJsonStringAux fuel cs).map (fun p => (c :: p.1, p.2))

/-- Parse a JSON number (strict grammar) into an exact scaled decimal. -/
def parseJsonNumber (cs : List Char) : Option (DecNum × List Char) :=
  let signed := cs.head? = some '-'
  let cs1 := if signed then cs.tail else cs
  let intDigits := cs1.takeWhile isDigitChar
  let afterInt := cs1.dropWhile isDigitChar
  if intDigits = [] then none
  else if 2 ≤ intDigits.length ∧ intDigits.head? = some '0' then none
  else
    let fracRes : Option DecNum × List Char :=
      match afterInt with
      | '.' :: r =>
        let fd := r.takeWhile isDigitChar
        ((if fd = [] then none
          else some ⟨(charsVal intDigits : Int) * 10 ^ fd.length + charsVal fd, fd.length⟩),
         r.dropWhile isDigitChar)
      | r => (some ⟨(charsVal intDigits : Int), 0⟩, r)
    match fracRes with
    | (none, _) => none
    | (some m, afterFrac) =>
      let expRes : Option (Bool × Nat) × List Char :=
        match afterFrac with
        | e :: r =>
          if e = 'e' ∨ e = 'E' then
            let sr : Bool × List Char :=
              match r with
              | '+' :: r3 => (false, r3)
              | '-' :: r3 => (true, r3)
              | r3 => (false, r3)
            let ed := sr.2.takeWhile isDigitChar
            ((if ed = [] then none else some (sr.1, charsVal ed)), sr.2.dropWhile isDigitChar)
          else (some (false, 0), e :: r)
        | [] => (some (false, 0), [])
      match expRes with
      | (none, _) => none
      | (some se, rest) =>
        let scaled := mulPow10 m se.1 se.2
        some ((if signed then DecNum.canon ⟨-scaled.num, scaled.den10⟩ else scaled.canon), rest)

mutual

/-- Parse one JSON value; fuel bounds the call depth (each nested call
consumes at least one input character, so `length + 1` fuel suffices). -/
def parseJsonValue : Nat → List Char → Option (JVal × List Char)
  | 0, _ => none
  | fuel + 1, cs0 =>
    match skipWs cs0 with
    | [] => none
    | c :: rest =>
      if c = openBrace then parseJsonObjBody fuel rest []
      else if c = '[' then parseJsonArrBody fuel rest []
      else if c = '"' then
        (parseJsonStringAux (rest.length + 1) rest).map (fun p => (.str ⟨p.1⟩, p.2))
      else if (c :: rest).take 4 = ['t', 'r', 'u', 'e'] then some (.bool true, (c :: rest).drop 4)
      else if (c :: rest).take 5 = ['f', 'a', 'l', 's', 'e'] then some (.bool false, (c :: rest).drop 5)
      else if (c :: rest).take 4 = ['n', 'u', 'l', 'l'] then some (.null, (c :: rest).drop 4)
      else (parseJsonNumber (c :: rest)).map (fun p => (.num (.fin p.1), p.2))

/-- Parse the members of an object after the opening brace; duplicate
keys overwrite in place, as JavaScript property assignment does. -/
def parseJsonObjBody : Nat → List Char → List (String × JVal) → Option (JVal × List Char)
  | 0, _, _ => none
  | fuel + 1, cs0, acc =>
    match skipWs cs0 with
    | [] => none
    | c :: rest =>
      if c = closeBrace ∧ acc.isEmpty then some (.obj [], rest)
      else if c = '"' then
        match parseJsonStringAux (rest.length + 1) rest with
        | none => none
        | some (key, afterKey) =>
          match skipWs afterKey with
          | ':' :: afterColon =>
            match parseJsonValue fuel afterColon with
            | none => none
            | some (v, afterVal) =>
              match skipWs afterVal with
              | ',' :: afterComma => parseJsonObjBody fuel afterComma (objSet acc ⟨key⟩ v)
              | c2 :: afterClose =>
                if c2 = closeBrace then some (.obj (objSet acc ⟨key⟩ v), afterClose) else none
              | [] => none
          | _ => none
      else none

/-- Parse the elements of an array after the opening bracket. -/
def parseJsonArrBody : Nat → List Char → List JVal → Option (JVal × List Char)
  | 0, _, _ => none
  | fuel + 1, cs0, acc =>
    match skipWs cs0 with
    | ']' :: rest => if acc.isEmpty then some (.arr [], rest) else none
    | cs1 =>
      match parseJsonValue fuel cs1 with
      | none => none
      | some (v, afterVal) =>
        match skipWs afterVal with
        | ',' :: afterComma => parseJsonArrBody fuel afterComma (acc ++ [v])
        | ']' :: afterClose => some (.arr (acc ++ [v]), afterClose)
        | _ => none

end

/-- Model of `JSON.parse(s)`: `some` value on success, `none` where the
real function throws a SyntaxError. -/
def jsonParse (s : String) : Option JVal :=
  match parseJsonValue (s.length + 1) s.toList with
  | some (v, rest) => if skipWs rest = [] then some v else none
  | none => none

/-! ## App.tsx: text → value synchronization -/

/-- The three pieces of App state the synchronization effect touches. -/
structure AppState where
  data : JVal
  text : String
  parseError : Option String

/-- Stand-in for the SyntaxError message surfaced on parse failure (the
real message text comes from the exception; only its presence matters). -/
def parseErrorMessage : String := "Invalid JSON"

/-- Shallow embedding of the `useEffect` on `text` (App.tsx): try to
parse; on success store the new value and clear the parse error, on
failure keep `data` untouched and surface a message. -/
def syncTextEffect (s : AppState) : AppState :=
  match jsonParse s.text with
  | some v => { s with data := v, parseError := none }
  | none => { s with parseError := some parseErrorMessage }

/-- A text-buffer change followed by the synchronization effect. -/
def setTextAndSync (s : AppState) (t : String) : AppState :=
  syncTextEffect { s with text := t }

/-! ## TextView.tsx: the AJV validation cycle -/

/-- An AJV violation as consumed by the marker mapping. -/
structure VErr where
  instancePath : String
  keyword : String
  message : String

/-- A marker position (1-based lines/columns, from the Monaco model). -/
structure SourceRange where
  startLine : Nat
  startColumn : Nat
  endLine : Nat
  endColumn : Nat

/-- A validation marker as set by `setModelMarkers`. -/
structure Marker where
  message : String
  range : SourceRange

/-- Shallow embedding of the validation `useEffect` (TextView.tsx).  The
external collaborators are abstracted as function arguments: AJV
compile-and-run (`runValidator`) and the jsonc-parser range lookup
(`locate`).  If either the schema text or the document text fails to
parse, the marker set is replaced by the empty set and the cycle ends
before any validator runs; a passing validation also clears the markers;
otherwise each violation whose path can be located becomes a marker and
the rest are dropped. -/
def validationCycle (schemaText docText : String)
    (runValidator : JVal → JVal → List VErr)
    (locate : String → List String → Option SourceRange) : List Marker :=
  match jsonParse schemaText, jsonParse docText with
  | some schema, some data =>
    let errs := runValidator schema data
    if errs.isEmpty then []
    else
      errs.filterMap fun e =>
        (locate docText ((e.instancePath.splitOn "/").drop 1)).map
          (fun r => { message := e.message ++ " (" ++ e.keyword ++ ")", range := r })
  | _, _ => []

/-! # Supporting lemmas -/

/-! Round-trip lemmas for the digit machinery. -/

theorem natDigitsAux_digitsVal : ∀ fuel n, n ≤ fuel → digitsVal (natDigitsAux fuel n) = n := by
  intro fuel
  induction fuel with
  | zero => intro n h; interval_cases n; rfl
  | succ f ih =>
    intro n h
    match n with
    | 0 => rfl
    | m + 1 =>
      show digitsVal ((_ % 10) :: natDigitsAux f ((m + 1) / 10)) = m + 1
      have hd : (m + 1) / 10 ≤ f := by
        have := Nat.div_le_self (m + 1) 10
        have h2 : (m + 1) / 10 < m + 1 := Nat.div_lt_self (Nat.succ_pos m) (by omega)
        omega
      simp only [digitsVal, ih _ hd]
      omega

theorem digitsVal_natDigits (n : Nat) : digitsVal (natDigits n) = n :=
  natDigitsAux_digitsVal n n (Nat.le_refl n)

theorem natDigitsAux_lt_ten : ∀ fuel n d, d ∈ natDigitsAux fuel n → d < 10 := by
  intro fuel
  induction fuel with
  | zero => intro n d h; simp [natDigitsAux] at h
  | succ f ih =>
    intro n d h
    match n with
    | 0 => simp [natDigitsAux] at h
    | m + 1 =>
      simp only [natDigitsAux, List.mem_cons] at h
      rcases h with h | h
      · subst h; exact Nat.mod_lt _ (by omega)
      · exact ih _ _ h

theorem toNat_digitChar (d : Nat) (h : d < 10) : (digitChar d).toNat = 48 + d := by
  interval_cases d <;> decide

theorem isDigitChar_digitChar (d : Nat) (h : d < 10) : isDigitChar (digitChar d) = true := by
  interval_cases d <;> decide

theorem foldl_chStep_digits (acc : Nat) (L : List Nat) (h : ∀ d ∈ L, d < 10) :
    List.foldl chStep acc (L.reverse.map digitChar) = acc * 10 ^ L.length + digitsVal L := by
  induction L generalizing acc with
  | nil => simp [digitsVal]
  | cons d ds ih =>
    have hd : d < 10 := h d (List.mem_cons_self d ds)
    have hds : ∀ x ∈ ds, x < 10 := fun x hx => h x (List.mem_cons_of_mem d hx)
    simp only [List.reverse_cons, List.map_append, List.map_cons, List.map_nil,
      List.foldl_append, List.foldl_cons, List.foldl_nil]
    rw [ih _ hds]
    simp only [chStep, toNat_digitChar d hd, digitsVal, List.length_cons, pow_succ]
    have hdd : 48 + d - 48 = d := by omega
    rw [hdd]
    ring

theorem charsVal_natDigitChars (n : Nat) : charsVal (natDigitChars n) = n := by
  by_cases h : n = 0
  · subst h; rfl
  · unfold natDigitChars charsVal
    rw [if_neg h, foldl_chStep_digits 0 (natDigits n) (fun d hd => natDigitsAux_lt_ten n n d hd)]
    simp [digitsVal_natDigits]

theorem all_isDigitChar_natDigitChars (n : Nat) : (natDigitChars n).all isDigitChar = true := by
  by_cases h : n = 0
  · subst h; rfl
  · unfold natDigitChars
    rw [if_neg h, List.all_eq_true]
    intro c hc
    simp only [List.mem_map, List.mem_reverse] at hc
    obtain ⟨d, hd, rfl⟩ := hc
    exact isDigitChar_digitChar d (natDigitsAux_lt_ten n n d hd)

theorem natDigitChars_ne_nil (n : Nat) : natDigitChars n ≠ [] := by
  unfold natDigitChars
  by_cases h : n = 0
  · simp [h]
  · rw [if_neg h]
    intro hcon
    have h1 : digitsVal (natDigits n) = n := digitsVal_natDigits n
    have h2 : (natDigits n).reverse.map digitChar = [] := hcon
    have h3 : natDigits n = [] := by
      cases hq : natDigits n with
      | nil => rfl
      | cons a l => rw [hq] at h2; simp at h2
    rw [h3] at h1
    exact h (by simpa [digitsVal] using h1.symm)

theorem digitsToNat?_natDigitChars (n : Nat) : digitsToNat? (natDigitChars n) = some n := by
  unfold digitsToNat?
  rw [if_pos ⟨natDigitChars_ne_nil n, all_isDigitChar_natDigitChars n⟩, charsVal_natDigitChars]


/-! Lemmas about the printed form of a finite number and its re-parse. -/

theorem ne_of_isDigitChar {c x : Char} (h : isDigitChar c = true)
    (hx : isDigitChar x = false) : c ≠ x := by
  intro he
  rw [he, hx] at h
  cases h

theorem charsVal_replicate_zero_append (j : Nat) (cs : List Char) :
    charsVal (List.replicate j '0' ++ cs) = charsVal cs := by
  unfold charsVal
  rw [List.foldl_append]
  congr 1
  induction j with
  | zero => rfl
  | succ n ih =>
    rw [List.replicate_succ, List.foldl_cons]
    exact ih

theorem charsVal_padZeros (k n : Nat) : charsVal (padZeros k (natDigitChars n)) = n := by
  unfold padZeros
  rw [charsVal_replicate_zero_append, charsVal_natDigitChars]

theorem all_digits_padZeros (k n : Nat) : (padZeros k (natDigitChars n)).all isDigitChar = true := by
  unfold padZeros
  rw [List.all_append, Bool.and_eq_true]
  refine ⟨?_, all_isDigitChar_natDigitChars n⟩
  rw [List.all_eq_true]
  intro c hc
  rw [List.eq_of_mem_replicate hc]
  decide

theorem length_natDigitsAux_le :
    ∀ fuel n k, n < 10 ^ k → (natDigitsAux fuel n).length ≤ k := by
  intro fuel
  induction fuel with
  | zero => intro n k _; simp [natDigitsAux]
  | succ f ih =>
    intro n k h
    match n with
    | 0 => simp [natDigitsAux]
    | m + 1 =>
      match k with
      | 0 => simp at h
      | j + 1 =>
        show ((m + 1) % 10 :: natDigitsAux f ((m + 1) / 10)).length ≤ j + 1
        have hrec : (m + 1) / 10 < 10 ^ j := by
          rw [Nat.div_lt_iff_lt_mul (by omega : 0 < 10)]
          calc m + 1 < 10 ^ (j + 1) := h
            _ = 10 ^ j * 10 := by rw [pow_succ]
        simpa using ih _ _ hrec

theorem length_padZeros_eq (k n : Nat) (h1 : n < 10 ^ k) (h2 : 1 ≤ k) :
    (padZeros k (natDigitChars n)).length = k := by
  have hle : (natDigitChars n).length ≤ k := by
    unfold natDigitChars
    by_cases h : n = 0
    · simp [h]; omega
    · rw [if_neg h]
      simpa using length_natDigitsAux_le n n k h1
  unfold padZeros
  rw [List.length_append, List.length_replicate]
  omega

theorem splitFirstPred_eq_none (p : Char → Bool) :
    ∀ cs : List Char, (∀ c ∈ cs, p c = false) → splitFirstPred p cs = none := by
  intro cs
  induction cs with
  | nil => intro _; rfl
  | cons c tl ih =>
    intro h
    simp only [splitFirstPred, h c (List.mem_cons_self c tl), Bool.false_eq_true, if_false]
    rw [ih (fun x hx => h x (List.mem_cons_of_mem c hx))]
    rfl

theorem splitFirstPred_append (p : Char → Bool) (sep : Char) (B : List Char) :
    ∀ A : List Char, (∀ c ∈ A, p c = false) → p sep = true →
      splitFirstPred p (A ++ sep :: B) = some (A, B) := by
  intro A
  induction A with
  | nil =>
    intro _ hsep
    simp only [List.nil_append, splitFirstPred, hsep, if_true]
  | cons c tl ih =>
    intro h hsep
    simp only [List.cons_append, splitFirstPred, h c (List.mem_cons_self c tl),
      Bool.false_eq_true, if_false]
    rw [show tl.append (sep :: B) = tl ++ sep :: B from rfl,
      ih (fun x hx => h x (List.mem_cons_of_mem c hx)) hsep]
    rfl

theorem finToCharsNat_ne_nil (m k : Nat) : finToCharsNat m k ≠ [] := by
  unfold finToCharsNat
  by_cases hk : k = 0
  · rw [if_pos hk]; exact natDigitChars_ne_nil m
  · rw [if_neg hk]
    intro h
    exact absurd (List.append_eq_nil.1 h).1 (natDigitChars_ne_nil _)

theorem mem_finToCharsNat (m k : Nat) (c : Char) (h : c ∈ finToCharsNat m k) :
    isDigitChar c = true ∨ c = '.' := by
  unfold finToCharsNat at h
  by_cases hk : k = 0
  · rw [if_pos hk] at h
    exact Or.inl (List.all_eq_true.1 (all_isDigitChar_natDigitChars m) c h)
  · rw [if_neg hk] at h
    rcases List.mem_append.1 h with h | h
    · exact Or.inl (List.all_eq_true.1 (all_isDigitChar_natDigitChars _) c h)
    · rcases List.mem_cons.1 h with rfl | h
      · exact Or.inr rfl
      · exact Or.inl (List.all_eq_true.1 (all_digits_padZeros _ _) c h)

theorem mem_finToChars (d : DecNum) (c : Char) (h : c ∈ finToChars d) :
    isDigitChar c = true ∨ c = '-' ∨ c = '.' := by
  unfold finToChars at h
  rcases List.mem_append.1 h with h | h
  · by_cases hs : d.num < 0
    · rw [if_pos hs] at h
      rcases List.mem_cons.1 h with rfl | h
      · exact Or.inr (Or.inl rfl)
      · cases h
    · rw [if_neg hs] at h
      cases h
  · rcases mem_finToCharsNat _ _ c h with h | rfl
    · exact Or.inl h
    · exact Or.inr (Or.inr rfl)

theorem parseDecMantissa_split_none (cs : List Char)
    (h : splitFirstPred (fun c => c == '.') cs = none) :
    parseDecMantissa cs = (digitsToNat? cs).map (fun (n : Nat) => (⟨(n : Int), 0⟩ : DecNum)) := by
  unfold parseDecMantissa
  rw [h]

theorem parseDecMantissa_split_some (cs I F : List Char)
    (h : splitFirstPred (fun c => c == '.') cs = some (I, F)) :
    parseDecMantissa cs =
      if I.all isDigitChar ∧ F.all isDigitChar ∧ (I ≠ [] ∨ F ≠ []) then
        some ⟨(charsVal I : Int) * 10 ^ F.length + charsVal F, F.length⟩
      else none := by
  unfold parseDecMantissa
  rw [h]

theorem parseStrDecimal_noE (cs : List Char)
    (h : splitFirstPred (fun c => c == 'e' || c == 'E') cs = none) :
    parseStrDecimal cs = parseDecMantissa cs := by
  unfold parseStrDecimal
  rw [h]

theorem parseStrDecimal_finToCharsNat (m k : Nat) :
    parseStrDecimal (finToCharsNat m k) = some ⟨(m : Int), k⟩ := by
  have hnoE : splitFirstPred (fun c => c == 'e' || c == 'E') (finToCharsNat m k) = none := by
    apply splitFirstPred_eq_none
    intro c hc
    rcases mem_finToCharsNat m k c hc with h | rfl
    · rw [Bool.or_eq_false_iff]
      exact ⟨beq_eq_false_iff_ne.2 (ne_of_isDigitChar h (by decide)),
        beq_eq_false_iff_ne.2 (ne_of_isDigitChar h (by decide))⟩
    · decide
  rw [parseStrDecimal_noE _ hnoE]
  by_cases hk : k = 0
  · subst hk
    have hform : finToCharsNat m 0 = natDigitChars m := by unfold finToCharsNat; rfl
    rw [hform, parseDecMantissa_split_none _ (splitFirstPred_eq_none _ _ (fun c hc =>
      beq_eq_false_iff_ne.2 (ne_of_isDigitChar
        (List.all_eq_true.1 (all_isDigitChar_natDigitChars m) c hc) (by decide)))),
      digitsToNat?_natDigitChars]
    rfl
  · have hform : finToCharsNat m k =
        natDigitChars (m / 10 ^ k) ++ '.' :: padZeros k (natDigitChars (m % 10 ^ k)) := by
      unfold finToCharsNat
      rw [if_neg hk]
    rw [hform, parseDecMantissa_split_some _ _ _
      (splitFirstPred_append _ _ _ _ (fun c hc =>
        beq_eq_false_iff_ne.2 (ne_of_isDigitChar
          (List.all_eq_true.1 (all_isDigitChar_natDigitChars _) c hc) (by decide)))
        (by decide))]
    rw [if_pos ⟨all_isDigitChar_natDigitChars _, all_digits_padZeros _ _,
      Or.inl (natDigitChars_ne_nil _)⟩]
    have hBlen : (padZeros k (natDigitChars (m % 10 ^ k))).length = k :=
      length_padZeros_eq k _ (Nat.mod_lt _ (pow_pos (by omega) k)) (by omega)
    rw [charsVal_natDigitChars, charsVal_padZeros, hBlen]
    have hval : ((m / 10 ^ k : Nat) : Int) * (10 : Int) ^ k + ((m % 10 ^ k : Nat) : Int)
        = (m : Int) := by
      have h := Nat.div_add_mod m (10 ^ k)
      push_cast
      nlinarith [h]
    rw [hval]

theorem parseUnsigned_digitsDot (cs : List Char)
    (h : ∀ c ∈ cs, isDigitChar c = true ∨ c = '.') (hne : cs ≠ []) :
    parseUnsigned cs = (parseStrDecimal cs).map .fin := by
  have hinf : cs ≠ infinityChars := by
    intro he
    have hI : 'I' ∈ cs := by rw [he]; decide
    rcases h 'I' hI with hd | hd
    · exact absurd hd (by decide)
    · exact absurd hd (by decide)
  unfold parseUnsigned
  rw [if_neg hinf]
  rcases cs with _ | ⟨c0, _ | ⟨c1, rest⟩⟩
  · exact absurd rfl hne
  · rfl
  · have hc1 := h c1 (by simp)
    have hbeq : ∀ x : Char, isDigitChar x = false → x ≠ '.' → c1 ≠ x := by
      intro x hx hxd he
      rcases hc1 with hd | hd
      · exact ne_of_isDigitChar hd hx he
      · rw [hd] at he
        exact hxd he.symm
    simp only [parseUnsignedBody]
    by_cases h0 : c0 = '0'
    · rw [if_pos h0, if_neg ?hx, if_neg ?ho, if_neg ?hb]
      case hx => rintro (he | he) <;> exact hbeq _ (by decide) (by decide) he
      case ho => rintro (he | he) <;> exact hbeq _ (by decide) (by decide) he
      case hb => rintro (he | he) <;> exact hbeq _ (by decide) (by decide) he
    · rw [if_neg h0]

theorem jsStringToNumber_cons (c : Char) (rest : List Char) :
    jsStringToNumber ⟨c :: rest⟩ =
      canonJS (if c = '+' then (parseSignable rest).getD .nan
        else if c = '-' then ((parseSignable rest).map negJS).getD .nan
        else (parseUnsigned (c :: rest)).getD .nan) := rfl

theorem canon_den0 (x : Int) : DecNum.canon ⟨x, 0⟩ = ⟨x, 0⟩ := by
  unfold DecNum.canon
  by_cases h : x = 0
  · subst h; rfl
  · rw [if_neg h]
    rfl

theorem jsStringToNumber_print (d : DecNum) (hc : d.canon = d) :
    jsStringToNumber (jsNumberToString (.fin d)) = .fin d := by
  have hmem := mem_finToCharsNat d.num.natAbs d.den10
  have hmain : parseUnsigned (finToCharsNat d.num.natAbs d.den10) =
      some (.fin ⟨(d.num.natAbs : Int), d.den10⟩) := by
    rw [parseUnsigned_digitsDot _ (hmem) (finToCharsNat_ne_nil _ _),
      parseStrDecimal_finToCharsNat]
    rfl
  by_cases hs : d.num < 0
  · have hshape : jsNumberToString (.fin d) = ⟨'-' :: finToCharsNat d.num.natAbs d.den10⟩ := by
      show (⟨finToChars d⟩ : String) = _
      unfold finToChars
      rw [if_pos hs]
      rfl
    rw [hshape, jsStringToNumber_cons]
    rw [if_neg (by decide), if_pos rfl]
    unfold parseSignable
    rw [if_neg ?hinf]
    case hinf =>
      intro he
      have hI : 'I' ∈ finToCharsNat d.num.natAbs d.den10 := by rw [he]; decide
      rcases hmem 'I' hI with hd | hd
      · exact absurd hd (by decide)
      · exact absurd hd (by decide)
    rw [parseStrDecimal_finToCharsNat]
    show canonJS (.fin ⟨-(d.num.natAbs : Int), d.den10⟩) = .fin d
    have hneg : -(d.num.natAbs : Int) = d.num := by
      rw [Int.ofNat_natAbs_of_nonpos (le_of_lt hs)]
      ring
    rw [hneg]
    show JSNum.fin (DecNum.canon ⟨d.num, d.den10⟩) = .fin d
    rw [show (⟨d.num, d.den10⟩ : DecNum) = d from rfl, hc]
  · rcases hshape : finToCharsNat d.num.natAbs d.den10 with _ | ⟨c0, tl⟩
    · exact absurd hshape (finToCharsNat_ne_nil _ _)
    · have hstr : jsNumberToString (.fin d) = ⟨c0 :: tl⟩ := by
        show (⟨finToChars d⟩ : String) = _
        unfold finToChars
        rw [if_neg hs, hshape]
        rfl
      have hc0 : isDigitChar c0 = true ∨ c0 = '.' := by
        apply hmem
        rw [hshape]
        exact List.mem_cons_self c0 tl
      have hbeq : ∀ x : Char, isDigitChar x = false → x ≠ '.' → c0 ≠ x := by
        intro x hx hxd he
        rcases hc0 with hd | hd
        · exact ne_of_isDigitChar hd hx he
        · rw [hd] at he
          exact hxd he.symm
      rw [hstr, jsStringToNumber_cons]
      rw [if_neg (hbeq '+' (by decide) (by decide)), if_neg (hbeq '-' (by decide) (by decide))]
      rw [← hshape, hmain]
      show JSNum.fin (DecNum.canon ⟨(d.num.natAbs : Int), d.den10⟩) = .fin d
      have hpos : (d.num.natAbs : Int) = d.num := Int.natAbs_of_nonneg (not_lt.1 hs)
      rw [hpos]
      rw [show (⟨d.num, d.den10⟩ : DecNum) = d from rfl, hc]


theorem dropWhile_eq_self_of (p : Char → Bool) (l : List Char) (h : ∀ c ∈ l, p c = false) :
    l.dropWhile p = l := by
  cases l with
  | nil => rfl
  | cons c tl => simp [List.dropWhile_cons, h c (List.mem_cons_self c tl)]

theorem jsTrim_eq_self (cs : List Char) (h : ∀ c ∈ cs, isJsWs c = false) :
    jsTrim ⟨cs⟩ = ⟨cs⟩ := by
  unfold jsTrim
  rw [show (String.mk cs).toList = cs from rfl]
  rw [dropWhile_eq_self_of _ _ h,
    dropWhile_eq_self_of _ _ (fun c hc => h c (List.mem_reverse.1 hc)),
    List.reverse_reverse]

theorem isJsWs_false_of (c : Char) (h : isDigitChar c = true ∨ c = '-' ∨ c = '.') :
    isJsWs c = false := by
  have hne : ∀ x : Char, isDigitChar x = false → x ≠ '-' → x ≠ '.' → c ≠ x := by
    intro x hx h1 h2 he
    rcases h with hd | rfl | rfl
    · exact ne_of_isDigitChar hd hx he
    · exact h1 he.symm
    · exact h2 he.symm
  unfold isJsWs
  rw [beq_eq_false_iff_ne.2 (hne ' ' (by decide) (by decide) (by decide)),
    beq_eq_false_iff_ne.2 (hne '\t' (by decide) (by decide) (by decide)),
    beq_eq_false_iff_ne.2 (hne '\n' (by decide) (by decide) (by decide)),
    beq_eq_false_iff_ne.2 (hne '\r' (by decide) (by decide) (by decide)),
    beq_eq_false_iff_ne.2 (hne '\x0b' (by decide) (by decide) (by decide)),
    beq_eq_false_iff_ne.2 (hne '\x0c' (by decide) (by decide) (by decide))]
  rfl

theorem finToChars_ne_nil (d : DecNum) : finToChars d ≠ [] := by
  unfold finToChars
  intro h
  exact absurd (List.append_eq_nil.1 h).2 (finToCharsNat_ne_nil _ _)

theorem printed_ne_word (d : DecNum) (w : String) (c : Char) (hcw : c ∈ w.toList)
    (h1 : isDigitChar c = false) (h2 : c ≠ '-') (h3 : c ≠ '.') :
    (⟨finToChars d⟩ : String) ≠ w := by
  intro he
  have hmem : c ∈ finToChars d := by
    have h4 : finToChars d = w.toList := congrArg String.toList he
    rw [h4]
    exact hcw
  rcases mem_finToChars d c hmem with hd | hd | hd
  · rw [h1] at hd; cases hd
  · exact h2 hd
  · exact h3 hd

theorem mem_of_head?_eq {l : List Char} {c : Char} (h : l.head? = some c) : c ∈ l := by
  cases l with
  | nil => cases h
  | cons a tl =>
    rw [List.head?_cons] at h
    injection h with h
    rw [← h]
    exact List.mem_cons_self a tl


/-! Structural lemmas about `flattenJson` (used by C5). -/

theorem one_le_sizeJVal (v : JVal) : 1 ≤ sizeJVal v := by
  cases v <;> simp only [sizeJVal] <;> omega

mutual

theorem length_flattenJson (v : JVal) (path : List Seg) (depth : Nat) :
    (flattenJson v path depth).length + 1 = sizeJVal v := by
  cases v with
  | obj fs =>
    have h := length_flattenFields fs path depth
    simp only [flattenJson, sizeJVal]
    omega
  | arr xs =>
    have h := length_flattenItems xs 0 path depth
    simp only [flattenJson, sizeJVal]
    omega
  | null => rfl
  | bool b => rfl
  | num n => rfl
  | str s => rfl

theorem length_flattenFields (fs : List (String × JVal)) (path : List Seg) (depth : Nat) :
    (flattenFields fs path depth).length = sizeFields fs := by
  cases fs with
  | nil => rfl
  | cons kv rest =>
    obtain ⟨k, v⟩ := kv
    have h1 := length_flattenJson v (path ++ [Seg.key k]) (depth + 1)
    have h2 := length_flattenFields rest path depth
    simp only [flattenFields, sizeFields, List.length_append, List.length_cons]
    omega

theorem length_flattenItems (xs : List JVal) (i : Nat) (path : List Seg) (depth : Nat) :
    (flattenItems xs i path depth).length = sizeItems xs := by
  cases xs with
  | nil => rfl
  | cons v rest =>
    have h1 := length_flattenJson v (path ++ [Seg.idx i]) (depth + 1)
    have h2 := length_flattenItems rest (i + 1) path depth
    simp only [flattenItems, sizeItems, List.length_append, List.length_cons]
    omega

end

mutual

theorem depth_le_flattenJson (v : JVal) (path : List Seg) (depth : Nat) :
    ∀ n ∈ flattenJson v path depth, depth ≤ n.depth := by
  cases v with
  | obj fs => exact depth_le_flattenFields fs path depth
  | arr xs => exact depth_le_flattenItems xs 0 path depth
  | null => intro n h; cases h
  | bool b => intro n h; cases h
  | num m => intro n h; cases h
  | str s => intro n h; cases h

theorem depth_le_flattenFields (fs : List (String × JVal)) (path : List Seg) (depth : Nat) :
    ∀ n ∈ flattenFields fs path depth, depth ≤ n.depth := by
  cases fs with
  | nil => intro n h; cases h
  | cons kv rest =>
    obtain ⟨k, v⟩ := kv
    intro n h
    simp only [flattenFields, List.cons_append, List.mem_cons, List.mem_append] at h
    rcases h with rfl | h | h
    · exact Nat.le_refl _
    · have := depth_le_flattenJson v (path ++ [Seg.key k]) (depth + 1) n h
      omega
    · exact depth_le_flattenFields rest path depth n h

theorem depth_le_flattenItems (xs : List JVal) (i : Nat) (path : List Seg) (depth : Nat) :
    ∀ n ∈ flattenItems xs i path depth, depth ≤ n.depth := by
  cases xs with
  | nil => intro n h; cases h
  | cons v rest =>
    intro n h
    simp only [flattenItems, List.cons_append, List.mem_cons, List.mem_append] at h
    rcases h with rfl | h | h
    · exact Nat.le_refl _
    · have := depth_le_flattenJson v (path ++ [Seg.idx i]) (depth + 1) n h
      omega
    · exact depth_le_flattenItems rest (i + 1) path depth n h

end

mutual

theorem pathlen_flattenJson (v : JVal) (path : List Seg) (depth : Nat)
    (hp : path.length = depth) :
    ∀ n ∈ flattenJson v path depth, n.path.length = n.depth + 1 := by
  cases v with
  | obj fs => exact pathlen_flattenFields fs path depth hp
  | arr xs => exact pathlen_flattenItems xs 0 path depth hp
  | null => intro n h; cases h
  | bool b => intro n h; cases h
  | num m => intro n h; cases h
  | str s => intro n h; cases h

theorem pathlen_flattenFields (fs : List (String × JVal)) (path : List Seg) (depth : Nat)
    (hp : path.length = depth) :
    ∀ n ∈ flattenFields fs path depth, n.path.length = n.depth + 1 := by
  cases fs with
  | nil => intro n h; cases h
  | cons kv rest =>
    obtain ⟨k, v⟩ := kv
    intro n h
    simp only [flattenFields, List.cons_append, List.mem_cons, List.mem_append] at h
    rcases h with rfl | h | h
    · simp [mkFlatNode, hp]
    · exact pathlen_flattenJson v (path ++ [Seg.key k]) (depth + 1)
        (by simp [hp]) n h
    · exact pathlen_flattenFields rest path depth hp n h

theorem pathlen_flattenItems (xs : List JVal) (i : Nat) (path : List Seg) (depth : Nat)
    (hp : path.length = depth) :
    ∀ n ∈ flattenItems xs i path depth, n.path.length = n.depth + 1 := by
  cases xs with
  | nil => intro n h; cases h
  | cons v rest =>
    intro n h
    simp only [flattenItems, List.cons_append, List.mem_cons, List.mem_append] at h
    rcases h with rfl | h | h
    · simp [mkFlatNode, hp]
    · exact pathlen_flattenJson v (path ++ [Seg.idx i]) (depth + 1)
        (by simp [hp]) n h
    · exact pathlen_flattenItems rest (i + 1) path depth hp n h

end

theorem keys_flattenFields (fs : List (String × JVal)) (path : List Seg) (depth : Nat) :
    ((flattenFields fs path depth).filter (fun n => n.depth == depth)).map (fun n => n.key)
      = fs.map (fun kv => kv.1) := by
  induction fs with
  | nil => rfl
  | cons kv rest ih =>
    obtain ⟨k, v⟩ := kv
    simp only [flattenFields, List.cons_append, List.filter_cons, List.filter_append]
    have hnode : ((mkFlatNode k v (path ++ [Seg.key k]) depth).depth == depth) = true := by
      simp [mkFlatNode]
    rw [hnode]
    have hdesc : (flattenJson v (path ++ [Seg.key k]) (depth + 1)).filter
        (fun n => n.depth == depth) = [] := by
      rw [List.filter_eq_nil_iff]
      intro n hn
      have := depth_le_flattenJson v (path ++ [Seg.key k]) (depth + 1) n hn
      rw [beq_iff_eq]
      omega
    rw [hdesc]
    simp only [if_true, List.nil_append, List.map_cons, List.map]
    rw [ih]
    simp [mkFlatNode]

theorem keys_flattenItems (xs : List JVal) (path : List Seg) (depth : Nat) :
    ∀ i, ((flattenItems xs i path depth).filter (fun n => n.depth == depth)).map (fun n => n.key)
      = (List.range' i xs.length).map natToString := by
  induction xs with
  | nil => intro i; rfl
  | cons v rest ih =>
    intro i
    simp only [flattenItems, List.cons_append, List.filter_cons, List.filter_append]
    have hnode : ((mkFlatNode (natToString i) v (path ++ [Seg.idx i]) depth).depth == depth)
        = true := by
      simp [mkFlatNode]
    rw [hnode]
    have hdesc : (flattenJson v (path ++ [Seg.idx i]) (depth + 1)).filter
        (fun n => n.depth == depth) = [] := by
      rw [List.filter_eq_nil_iff]
      intro n hn
      have := depth_le_flattenJson v (path ++ [Seg.idx i]) (depth + 1) n hn
      rw [beq_iff_eq]
      omega
    rw [hdesc]
    simp only [if_true, List.nil_append, List.map_cons, List.map, List.length_cons,
      List.range'_succ]
    rw [ih (i + 1)]
    simp [mkFlatNode]

mutual

theorem contig_flattenJson (v : JVal) (path : List Seg) (depth : Nat) :
    ∀ i n, (flattenJson v path depth)[i]? = some n →
      i + sizeJVal n.value ≤ (flattenJson v path depth).length ∧
      ((flattenJson v path depth).drop (i + 1)).take (sizeJVal n.value - 1) =
        flattenJson n.value n.path (n.depth + 1) := by
  cases v with
  | obj fs => exact contig_flattenFields fs path depth
  | arr xs => exact contig_flattenItems xs 0 path depth
  | null => intro i n h; cases (by simp [flattenJson] at h : False)
  | bool b => intro i n h; cases (by simp [flattenJson] at h : False)
  | num m => intro i n h; cases (by simp [flattenJson] at h : False)
  | str s => intro i n h; cases (by simp [flattenJson] at h : False)

theorem contig_flattenFields (fs : List (String × JVal)) (path : List Seg) (depth : Nat) :
    ∀ i n, (flattenFields fs path depth)[i]? = some n →
      i + sizeJVal n.value ≤ (flattenFields fs path depth).length ∧
      ((flattenFields fs path depth).drop (i + 1)).take (sizeJVal n.value - 1) =
        flattenJson n.value n.path (n.depth + 1) := by
  cases fs with
  | nil => intro i n h; cases (by simp [flattenFields] at h : False)
  | cons kv rest =>
    obtain ⟨k, v⟩ := kv
    intro i n h
    have hF1 := length_flattenJson v (path ++ [Seg.key k]) (depth + 1)
    simp only [flattenFields, List.cons_append] at h ⊢
    cases i with
    | zero =>
      rw [List.getElem?_cons_zero] at h
      injection h with h
      subst h
      constructor
      · simp only [List.length_cons, List.length_append, mkFlatNode]
        omega
      · rw [List.drop_succ_cons, List.drop_zero]
        show (flattenJson v _ _ ++ _).take (sizeJVal v - 1) = _
        rw [List.take_append_of_le_length (by omega), show sizeJVal v - 1 =
          (flattenJson v (path ++ [Seg.key k]) (depth + 1)).length from by omega,
          List.take_length]
        rfl
    | succ i0 =>
      rw [List.getElem?_cons_succ] at h
      by_cases hlt : i0 < (flattenJson v (path ++ [Seg.key k]) (depth + 1)).length
      · rw [List.getElem?_append_left hlt] at h
        obtain ⟨hlen, heq⟩ := contig_flattenJson v (path ++ [Seg.key k]) (depth + 1) i0 n h
        constructor
        · simp only [List.length_cons, List.length_append]
          omega
        · rw [List.drop_succ_cons, List.drop_append_eq_append_drop,
            show i0 + 1 - (flattenJson v (path ++ [Seg.key k]) (depth + 1)).length = 0
              from by omega,
            List.drop_zero,
            List.take_append_of_le_length (by rw [List.length_drop]; omega)]
          exact heq
      · have hge : (flattenJson v (path ++ [Seg.key k]) (depth + 1)).length ≤ i0 := by omega
        rw [List.getElem?_append_right hge] at h
        obtain ⟨hlen, heq⟩ := contig_flattenFields rest path depth
          (i0 - (flattenJson v (path ++ [Seg.key k]) (depth + 1)).length) n h
        constructor
        · simp only [List.length_cons, List.length_append]
          omega
        · rw [List.drop_succ_cons, List.drop_append_eq_append_drop,
            List.drop_eq_nil_of_le (by omega), List.nil_append,
            show i0 + 1 - (flattenJson v (path ++ [Seg.key k]) (depth + 1)).length =
              (i0 - (flattenJson v (path ++ [Seg.key k]) (depth + 1)).length) + 1
              from by omega]
          exact heq

theorem contig_flattenItems (xs : List JVal) (j : Nat) (path : List Seg) (depth : Nat) :
    ∀ i n, (flattenItems xs j path depth)[i]? = some n →
      i + sizeJVal n.value ≤ (flattenItems xs j path depth).length ∧
      ((flattenItems xs j path depth).drop (i + 1)).take (sizeJVal n.value - 1) =
        flattenJson n.value n.path (n.depth + 1) := by
  cases xs with
  | nil => intro i n h; cases (by simp [flattenItems] at h : False)
  | cons v rest =>
    intro i n h
    have hF1 := length_flattenJson v (path ++ [Seg.idx j]) (depth + 1)
    simp only [flattenItems, List.cons_append] at h ⊢
    cases i with
    | zero =>
      rw [List.getElem?_cons_zero] at h
      injection h with h
      subst h
      constructor
      · simp only [List.length_cons, List.length_append, mkFlatNode]
        omega
      · rw [List.drop_succ_cons, List.drop_zero]
        show (flattenJson v _ _ ++ _).take (sizeJVal v - 1) = _
        rw [List.take_append_of_le_length (by omega), show sizeJVal v - 1 =
          (flattenJson v (path ++ [Seg.idx j]) (depth + 1)).length from by omega,
          List.take_length]
        rfl
    | succ i0 =>
      rw [List.getElem?_cons_succ] at h
      by_cases hlt : i0 < (flattenJson v (path ++ [Seg.idx j]) (depth + 1)).length
      · rw [List.getElem?_append_left hlt] at h
        obtain ⟨hlen, heq⟩ := contig_flattenJson v (path ++ [Seg.idx j]) (depth + 1) i0 n h
        constructor
        · simp only [List.length_cons, List.length_append]
          omega
        · rw [List.drop_succ_cons, List.drop_append_eq_append_drop,
            show i0 + 1 - (flattenJson v (path ++ [Seg.idx j]) (depth + 1)).length = 0
              from by omega,
            List.drop_zero,
            List.take_append_of_le_length (by rw [List.length_drop]; omega)]
          exact heq
      · have hge : (flattenJson v (path ++ [Seg.idx j]) (depth + 1)).length ≤ i0 := by omega
        rw [List.getElem?_append_right hge] at h
        obtain ⟨hlen, heq⟩ := contig_flattenItems rest (j + 1) path depth
          (i0 - (flattenJson v (path ++ [Seg.idx j]) (depth + 1)).length) n h
        constructor
        · simp only [List.length_cons, List.length_append]
          omega
        · rw [List.drop_succ_cons, List.drop_append_eq_append_drop,
            List.drop_eq_nil_of_le (by omega), List.nil_append,
            show i0 + 1 - (flattenJson v (path ++ [Seg.idx j]) (depth + 1)).length =
              (i0 - (flattenJson v (path ++ [Seg.idx j]) (depth + 1)).length) + 1
              from by omega]
          exact heq

end


/-! Lemmas about the update engine (used by C1 and C4). -/

theorem objGet_objSet_same (fs : List (String × JVal)) (k : String) (x : JVal) :
    objGet (objSet fs k x) k = some x := by
  induction fs with
  | nil => simp [objGet, objSet, List.lookup]
  | cons kv rest ih =>
    obtain ⟨k0, v0⟩ := kv
    by_cases h : k0 = k
    · subst h
      simp [objGet, objSet, List.lookup]
    · simp only [objSet, if_neg h]
      simpa [objGet, List.lookup, beq_eq_false_iff_ne.2 (Ne.symm h)] using ih

theorem objGet_objSet_ne (fs : List (String × JVal)) (k k1 : String) (x : JVal)
    (h : k1 ≠ k) : objGet (objSet fs k x) k1 = objGet fs k1 := by
  induction fs with
  | nil => simp [objGet, objSet, List.lookup, beq_eq_false_iff_ne.2 h]
  | cons kv rest ih =>
    obtain ⟨k0, v0⟩ := kv
    by_cases h0 : k0 = k
    · subst h0
      simp [objGet, objSet, List.lookup, beq_eq_false_iff_ne.2 h]
    · by_cases h1 : k1 = k0
      · subst h1
        simp [objGet, objSet, if_neg h0, List.lookup]
      · simp only [objSet, if_neg h0]
        simpa [objGet, List.lookup, beq_eq_false_iff_ne.2 h1] using ih

theorem parseCanonIdx_eq (s : String) (n : Nat) (h : parseCanonIdx s = some n) :
    natToString n = s := by
  unfold parseCanonIdx at h
  cases hd : digitsToNat? s.toList with
  | none => rw [hd] at h; cases h
  | some m =>
    rw [hd] at h
    simp only [Option.some_bind] at h
    by_cases hm : natToString m = s
    · rw [if_pos hm] at h
      injection h with h
      rw [← h]
      exact hm
    · rw [if_neg hm] at h
      cases h

theorem underKeys_nil_left (q : List String) : underKeys [] q = true := by
  simp [underKeys]

theorem underKeys_cons_same (a : String) (p q : List String) :
    underKeys (a :: p) (a :: q) = underKeys p q := by
  simp only [underKeys, List.length_cons, List.take_succ_cons]
  rw [decide_eq_decide]
  constructor
  · intro h; injection h
  · intro h; rw [h]

theorem underKeys_cons_ne (a b : String) (p q : List String) (hne : b ≠ a) :
    underKeys (a :: p) (b :: q) = false := by
  simp only [underKeys, List.length_cons, List.take_succ_cons, decide_eq_false_iff_not]
  intro h
  injection h with h1 _
  exact hne h1

theorem resolvePath_cons (v : JVal) (seg : Seg) (rest : List Seg) :
    resolvePath v (seg :: rest) = (jsGetVal v seg).bind (fun c => resolvePath c rest) := rfl

theorem applyAt_spec :
    ∀ (rest : List Seg) (seg : Seg) (v x old : JVal),
      resolvePath v (seg :: rest) = some old →
      ∃ w, applyAt v seg rest x = .ok w ∧
        resolvePath w (seg :: rest) = some x ∧
        ∀ q : List Seg,
          underKeys ((seg :: rest).map segToKey) (q.map segToKey) = false →
          underKeys (q.map segToKey) ((seg :: rest).map segToKey) = false →
          resolvePath w q = resolvePath v q := by
  intro rest
  induction rest with
  | nil =>
    intro seg v x old hres
    have hget : jsGetVal v seg = some old := by
      rw [resolvePath_cons] at hres
      cases hj : jsGetVal v seg with
      | none => rw [hj] at hres; cases hres
      | some c =>
        rw [hj] at hres
        exact hres
    cases v with
    | obj fs =>
      refine ⟨.obj (objSet fs (segToKey seg) x), rfl, ?_, ?_⟩
      · rw [resolvePath_cons]
        show (objGet (objSet fs (segToKey seg) x) (segToKey seg)).bind _ = _
        rw [objGet_objSet_same]
        rfl
      · intro q hq1 hq2
        cases q with
        | nil => rw [List.map_nil, underKeys_nil_left] at hq2; cases hq2
        | cons seg1 q1 =>
          by_cases hk : segToKey seg1 = segToKey seg
          · exfalso
            simp only [List.map_cons, List.map_nil] at hq1
            rw [hk, underKeys_cons_same, underKeys_nil_left] at hq1
            cases hq1
          · rw [resolvePath_cons, resolvePath_cons]
            show (objGet (objSet fs (segToKey seg) x) (segToKey seg1)).bind _ =
              (objGet fs (segToKey seg1)).bind _
            rw [objGet_objSet_ne fs _ _ x hk]
    | arr xs =>
      obtain ⟨nidx, hparse, hnth⟩ :
          ∃ nidx, parseCanonIdx (segToKey seg) = some nidx ∧ xs[nidx]? = some old := by
        cases hp : parseCanonIdx (segToKey seg) with
        | none =>
          rw [show jsGetVal (.arr xs) seg =
            (parseCanonIdx (segToKey seg)).bind (fun n => xs[n]?) from rfl, hp] at hget
          cases hget
        | some n =>
          rw [show jsGetVal (.arr xs) seg =
            (parseCanonIdx (segToKey seg)).bind (fun n => xs[n]?) from rfl, hp] at hget
          exact ⟨n, rfl, hget⟩
      have hlt : nidx < xs.length := by
        by_contra hcon
        rw [List.getElem?_eq_none (by omega)] at hnth
        cases hnth
      refine ⟨.arr (xs.set nidx x), ?_, ?_, ?_⟩
      · show (match parseCanonIdx (segToKey seg) with
          | some n => Except.ok (JVal.arr (arrSet xs n x))
          | none => Except.ok (JVal.arr xs)) = _
        rw [hparse]
        show Except.ok (JVal.arr (arrSet xs nidx x)) = _
        unfold arrSet
        rw [if_pos hlt]
      · rw [resolvePath_cons]
        show ((parseCanonIdx (segToKey seg)).bind (fun n => (xs.set nidx x)[n]?)).bind _ = _
        rw [hparse]
        simp only [Option.some_bind]
        rw [List.getElem?_set_self hlt]
        rfl
      · intro q hq1 hq2
        cases q with
        | nil => rw [List.map_nil, underKeys_nil_left] at hq2; cases hq2
        | cons seg1 q1 =>
          by_cases hk : segToKey seg1 = segToKey seg
          · exfalso
            simp only [List.map_cons, List.map_nil] at hq1
            rw [hk, underKeys_cons_same, underKeys_nil_left] at hq1
            cases hq1
          · rw [resolvePath_cons, resolvePath_cons]
            show ((parseCanonIdx (segToKey seg1)).bind (fun n => (xs.set nidx x)[n]?)).bind _ =
              ((parseCanonIdx (segToKey seg1)).bind (fun n => xs[n]?)).bind _
            cases hp1 : parseCanonIdx (segToKey seg1) with
            | none => rfl
            | some n1 =>
              have hne : nidx ≠ n1 := by
                intro he
                apply hk
                rw [← parseCanonIdx_eq _ _ hp1, ← parseCanonIdx_eq _ _ hparse, he]
              simp only [Option.some_bind]
              rw [List.getElem?_set_ne hne]
    | null => cases (by simp [jsGetVal] at hget : False)
    | bool b => cases (by simp [jsGetVal] at hget : False)
    | num m => cases (by simp [jsGetVal] at hget : False)
    | str st => cases (by simp [jsGetVal] at hget : False)
  | cons s2 rest2 ih =>
    intro seg v x old hres
    rw [resolvePath_cons] at hres
    cases hj : jsGetVal v seg with
    | none => rw [hj] at hres; cases hres
    | some child =>
      rw [hj] at hres
      simp only [Option.some_bind] at hres
      obtain ⟨w2, hap2, hres2, hframe2⟩ := ih s2 child x old hres
      cases v with
      | obj fs =>
        have hgetv : objGet fs (segToKey seg) = some child := hj
        refine ⟨.obj (objSet fs (segToKey seg) w2), ?_, ?_, ?_⟩
        · show (match objGet fs (segToKey seg) with
            | some c =>
              (applyAt c s2 rest2 x).map (fun c2 => JVal.obj (objSet fs (segToKey seg) c2))
            | none => Except.error ()) = _
          rw [hgetv]
          show (applyAt child s2 rest2 x).map (fun c2 => JVal.obj (objSet fs (segToKey seg) c2)) = _
          rw [hap2]
          rfl
        · rw [resolvePath_cons]
          show (objGet (objSet fs (segToKey seg) w2) (segToKey seg)).bind _ = _
          rw [objGet_objSet_same]
          simpa using hres2
        · intro q hq1 hq2
          cases q with
          | nil => rw [List.map_nil, underKeys_nil_left] at hq2; cases hq2
          | cons seg1 q1 =>
            by_cases hk : segToKey seg1 = segToKey seg
            · rw [resolvePath_cons, resolvePath_cons]
              show (objGet (objSet fs (segToKey seg) w2) (segToKey seg1)).bind _ =
                (objGet fs (segToKey seg1)).bind _
              rw [hk, objGet_objSet_same, hgetv]
              simp only [Option.some_bind]
              apply hframe2
              · simp only [List.map_cons] at hq1 ⊢
                rw [hk, underKeys_cons_same] at hq1
                exact hq1
              · simp only [List.map_cons] at hq2 ⊢
                rw [hk, underKeys_cons_same] at hq2
                exact hq2
            · rw [resolvePath_cons, resolvePath_cons]
              show (objGet (objSet fs (segToKey seg) w2) (segToKey seg1)).bind _ =
                (objGet fs (segToKey seg1)).bind _
              rw [objGet_objSet_ne fs _ _ w2 hk]
      | arr xs =>
        obtain ⟨nidx, hparse, hnth⟩ :
            ∃ nidx, parseCanonIdx (segToKey seg) = some nidx ∧ xs[nidx]? = some child := by
          cases hp : parseCanonIdx (segToKey seg) with
          | none =>
            rw [show jsGetVal (.arr xs) seg =
              (parseCanonIdx (segToKey seg)).bind (fun n => xs[n]?) from rfl, hp] at hj
            cases hj
          | some n =>
            rw [show jsGetVal (.arr xs) seg =
              (parseCanonIdx (segToKey seg)).bind (fun n => xs[n]?) from rfl, hp] at hj
            exact ⟨n, rfl, hj⟩
        have hlt : nidx < xs.length := by
          by_contra hcon
          rw [List.getElem?_eq_none (by omega)] at hnth
          cases hnth
        refine ⟨.arr (xs.set nidx w2), ?_, ?_, ?_⟩
        · show (match parseCanonIdx (segToKey seg) with
            | some n =>
              match xs[n]? with
              | some c => (applyAt c s2 rest2 x).map (fun c2 => JVal.arr (xs.set n c2))
              | none => Except.error ()
            | none => Except.error ()) = _
          rw [hparse]
          show (match xs[nidx]? with
            | some c => (applyAt c s2 rest2 x).map (fun c2 => JVal.arr (xs.set nidx c2))
            | none => Except.error ()) = _
          rw [hnth]
          show (applyAt child s2 rest2 x).map (fun c2 => JVal.arr (xs.set nidx c2)) = _
          rw [hap2]
          rfl
        · rw [resolvePath_cons]
          show ((parseCanonIdx (segToKey seg)).bind (fun n => (xs.set nidx w2)[n]?)).bind _ = _
          rw [hparse]
          simp only [Option.some_bind]
          rw [List.getElem?_set_self hlt]
          simpa using hres2
        · intro q hq1 hq2
          cases q with
          | nil => rw [List.map_nil, underKeys_nil_left] at hq2; cases hq2
          | cons seg1 q1 =>
            by_cases hk : segToKey seg1 = segToKey seg
            · rw [resolvePath_cons, resolvePath_cons]
              show ((parseCanonIdx (segToKey seg1)).bind (fun n => (xs.set nidx w2)[n]?)).bind _ =
                ((parseCanonIdx (segToKey seg1)).bind (fun n => xs[n]?)).bind _
              rw [hk, hparse]
              simp only [Option.some_bind]
              rw [List.getElem?_set_self hlt, hnth]
              simp only [Option.some_bind]
              apply hframe2
              · simp only [List.map_cons] at hq1 ⊢
                rw [hk, underKeys_cons_same] at hq1
                exact hq1
              · simp only [List.map_cons] at hq2 ⊢
                rw [hk, underKeys_cons_same] at hq2
                exact hq2
            · rw [resolvePath_cons, resolvePath_cons]
              show ((parseCanonIdx (segToKey seg1)).bind (fun n => (xs.set nidx w2)[n]?)).bind _ =
                ((parseCanonIdx (segToKey seg1)).bind (fun n => xs[n]?)).bind _
              cases hp1 : parseCanonIdx (segToKey seg1) with
              | none => rfl
              | some n1 =>
                have hne : nidx ≠ n1 := by
                  intro he
                  apply hk
                  rw [← parseCanonIdx_eq _ _ hp1, ← parseCanonIdx_eq _ _ hparse, he]
                simp only [Option.some_bind]
                rw [List.getElem?_set_ne hne]
      | null => cases (by simp [jsGetVal] at hj : False)
      | bool b => cases (by simp [jsGetVal] at hj : False)
      | num m => cases (by simp [jsGetVal] at hj : False)
      | str st => cases (by simp [jsGetVal] at hj : False)


theorem applyAt_noncomposite (cur : JVal) (hnc : hasChildrenOf cur = false)
    (seg : Seg) (rest : List Seg) (x : JVal) : applyAt cur seg rest x = .error () := by
  cases rest with
  | nil =>
    cases cur with
    | obj fs => simp [hasChildrenOf] at hnc
    | arr xs => simp [hasChildrenOf] at hnc
    | null => rfl
    | bool b => rfl
    | num n => rfl
    | str st => rfl
  | cons s2 r2 =>
    cases cur with
    | obj fs => simp [hasChildrenOf] at hnc
    | arr xs => simp [hasChildrenOf] at hnc
    | null => rfl
    | bool b => rfl
    | num n => rfl
    | str st => rfl

theorem applyAt_error :
    ∀ (rest : List Seg) (seg : Seg) (v x : JVal),
      (∃ k, k < rest.length ∧ isCompositeO (resolvePath v ((seg :: rest).take (k + 1))) = false) →
      applyAt v seg rest x = .error () := by
  intro rest
  induction rest with
  | nil =>
    rintro seg v x ⟨k, hk, -⟩
    simp at hk
  | cons s2 rest2 ih =>
    rintro seg v x ⟨k, hk, hfail⟩
    rw [List.take_succ_cons] at hfail
    cases v with
    | null => rfl
    | bool b => rfl
    | num n => rfl
    | str st => rfl
    | obj fs =>
      show (match objGet fs (segToKey seg) with
        | some c => (applyAt c s2 rest2 x).map (fun c2 => JVal.obj (objSet fs (segToKey seg) c2))
        | none => Except.error ()) = Except.error ()
      cases hg : objGet fs (segToKey seg) with
      | none => rfl
      | some child =>
        have hfail2 : isCompositeO (resolvePath child ((s2 :: rest2).take k)) = false := by
          rw [resolvePath_cons,
            show jsGetVal (.obj fs) seg = objGet fs (segToKey seg) from rfl, hg] at hfail
          simpa using hfail
        show (applyAt child s2 rest2 x).map (fun c2 => JVal.obj (objSet fs (segToKey seg) c2))
          = Except.error ()
        cases k with
        | zero =>
          have hnc : hasChildrenOf child = false := by
            cases child with
            | obj fs2 => simp [resolvePath, isCompositeO] at hfail2
            | arr xs2 => simp [resolvePath, isCompositeO] at hfail2
            | null => rfl
            | bool b => rfl
            | num n => rfl
            | str st => rfl
          rw [applyAt_noncomposite child hnc s2 rest2 x]
          rfl
        | succ k0 =>
          simp only [List.length_cons] at hk
          rw [ih s2 child x ⟨k0, by omega, hfail2⟩]
          rfl
    | arr xs =>
      show (match parseCanonIdx (segToKey seg) with
        | some n =>
          match xs[n]? with
          | some c => (applyAt c s2 rest2 x).map (fun c2 => JVal.arr (xs.set n c2))
          | none => Except.error ()
        | none => Except.error ()) = Except.error ()
      cases hp : parseCanonIdx (segToKey seg) with
      | none => rfl
      | some n =>
        show (match xs[n]? with
          | some c => (applyAt c s2 rest2 x).map (fun c2 => JVal.arr (xs.set n c2))
          | none => Except.error ()) = Except.error ()
        cases hn : xs[n]? with
        | none => rfl
        | some child =>
          have hfail2 : isCompositeO (resolvePath child ((s2 :: rest2).take k)) = false := by
            rw [resolvePath_cons,
              show jsGetVal (.arr xs) seg =
                (parseCanonIdx (segToKey seg)).bind (fun n => xs[n]?) from rfl, hp] at hfail
            simp only [Option.some_bind] at hfail
            rw [hn] at hfail
            simpa using hfail
          show (applyAt child s2 rest2 x).map (fun c2 => JVal.arr (xs.set n c2)) = Except.error ()
          cases k with
          | zero =>
            have hnc : hasChildrenOf child = false := by
              cases child with
              | obj fs2 => simp [resolvePath, isCompositeO] at hfail2
              | arr xs2 => simp [resolvePath, isCompositeO] at hfail2
              | null => rfl
              | bool b => rfl
              | num n2 => rfl
              | str st => rfl
            rw [applyAt_noncomposite child hnc s2 rest2 x]
            rfl
          | succ k0 =>
            simp only [List.length_cons] at hk
            rw [ih s2 child x ⟨k0, by omega, hfail2⟩]
            rfl


/-! # Claims -/

/-! ## C6: expansion default rule -/

/-- C6, counterexample.  The claim says an absent entry defaults to
expanded exactly when depth ≤ 1; the code (`expanded[node.id] ??
(node.depth === 0)`, TreeView.tsx line 400) defaults a depth-1 node with
no entry to collapsed. -/
theorem c6_expansion_default_counterexample :
    isExpanded [] "root.a" 1 = false ∧ (1 : Nat) ≤ 1 :=
  ⟨rfl, by decide⟩

/-- C6, amended: the expansion state consulted by the tree view is the
stored boolean when an entry exists, and otherwise defaults to expanded
exactly when depth = 0 (the synthetic root only), collapsed for every
depth > 0. -/
theorem c6_expansion_default (m : List (String × Bool)) (id : String) (d : Nat) :
    (∀ b, lookupStr m id = some b → isExpanded m id d = b) ∧
    (lookupStr m id = none → (isExpanded m id d = true ↔ d = 0)) := by
  constructor
  · intro b hb
    simp [isExpanded, hb]
  · intro h
    simp [isExpanded, h]

/-- C6 witness: the amended rule evaluated at concrete inputs. -/
theorem c6_expansion_default_witness :
    isExpanded [("root", true)] "root" 5 = true ∧ (isExpanded [] "x" 2 = true ↔ 2 = 0) :=
  ⟨(c6_expansion_default [("root", true)] "root" 5).1 true rfl,
   (c6_expansion_default [] "x" 2).2 rfl⟩

/-! ## C10: node identifiers are not injective over paths -/

/-- C10: `flattenJson` joins path segments with `.`, so the distinct
paths `["a.b"]` and `["a", "b"]` receive the same identifier; in the
concrete document `{"a.b": 1, "a": {"b": 2}}` two different rows both get
id `"root.a.b"`, so expansion toggling and edit-mode targeting keyed by
id conflate them. -/
theorem c10_duplicate_ids :
    joinPath [Seg.key "a.b"] = joinPath [Seg.key "a", Seg.key "b"] ∧
    [Seg.key "a.b"] ≠ [Seg.key "a", Seg.key "b"] ∧
    (flattenedNodes (JVal.obj [("a.b", .num (.fin ⟨1, 0⟩)), ("a", .obj [("b", .num (.fin ⟨2, 0⟩))])])).map
        (fun n => (n.id, n.path)) =
      [("root", [Seg.key "root"]),
       ("root.a.b", [Seg.key "root", Seg.key "a.b"]),
       ("root.a", [Seg.key "root", Seg.key "a"]),
       ("root.a.b", [Seg.key "root", Seg.key "a", Seg.key "b"])] :=
  ⟨rfl, by decide, rfl⟩

/-! ## C2: visibility filtering -/

/-- C2, counterexample.  The claim says a node of depth ≥ 2 is kept iff
*every* ancestor is expanded; the code checks only the immediate parent.
In `{"a": {"b": {"c": 1}}}` with expansion `{root: true, root.a.b: true}`
the depth-3 node `root.a.b.c` is kept although its ancestor `root.a` has
no entry (hence is not expanded — its own row is even filtered out). -/
theorem c2_visibility_counterexample :
    (visibleNodes
        (flattenedNodes (JVal.obj [("a", .obj [("b", .obj [("c", .num (.fin ⟨1, 0⟩))])])]))
        [("root", true), ("root.a.b", true)]).map (fun n => (n.id, n.depth)) =
      [("root", 0), ("root.a", 1), ("root.a.b.c", 3)] ∧
    lookupStr [("root", true), ("root.a.b", true)] "root.a" = none :=
  ⟨rfl, rfl⟩

/-- C2, amended: for every flattened node list and expansion map, a node
of depth ≤ 1 is always kept by `visibleNodes`, and a node of depth ≥ 2 is
kept iff the entry for its *immediate parent* path is present and true
(absent entries count as collapsed); more distant ancestors are not
consulted. -/
theorem c2_visibility (nodes : List FlattenedNode) (expanded : List (String × Bool))
    (n : FlattenedNode) :
    n ∈ visibleNodes nodes expanded ↔
      n ∈ nodes ∧
        (n.depth ≤ 1 ∨ (lookupStr expanded (joinPath n.path.dropLast)).getD false = true) := by
  rw [visibleNodes, List.mem_filter]
  constructor
  · rintro ⟨h1, h2⟩
    refine ⟨h1, ?_⟩
    by_cases hd : n.depth ≤ 1
    · exact Or.inl hd
    · rw [if_neg hd] at h2
      exact Or.inr h2
  · rintro ⟨h1, h2⟩
    refine ⟨h1, ?_⟩
    by_cases hd : n.depth ≤ 1
    · rw [if_pos hd]
    · rw [if_neg hd]
      rcases h2 with h | h
      · exact absurd h hd
      · exact h

/-! ## C7: parse-failure containment in the text → value sync -/

/-- C7: whenever the text buffer changes to a string that does not parse,
the canonical value is kept unchanged and a parse-error message is
surfaced; whenever it parses, the canonical value is replaced by the
parse result and the parse-error surface is cleared (App.tsx `useEffect`
on `text`). -/
theorem c7_sync_containment (s : AppState) (t : String) :
    (jsonParse t = none →
      (setTextAndSync s t).data = s.data ∧
      (setTextAndSync s t).parseError = some parseErrorMessage) ∧
    (∀ v, jsonParse t = some v →
      (setTextAndSync s t).data = v ∧ (setTextAndSync s t).parseError = none) := by
  constructor
  · intro h
    simp [setTextAndSync, syncTextEffect, h]
  · intro v h
    simp [setTextAndSync, syncTextEffect, h]

/-- C7 witness: an unparsable buffer (a lone open brace) keeps the value
and surfaces the message; the buffer `"1"` replaces the value and clears
it. -/
theorem c7_sync_containment_witness :
    ((setTextAndSync ⟨.str "keep", "x", none⟩ "\x7b").data = JVal.str "keep" ∧
      (setTextAndSync ⟨.str "keep", "x", none⟩ "\x7b").parseError = some parseErrorMessage) ∧
    ((setTextAndSync ⟨.str "keep", "x", none⟩ "1").data = JVal.num (.fin ⟨1, 0⟩) ∧
      (setTextAndSync ⟨.str "keep", "x", none⟩ "1").parseError = none) :=
  by
  have h1 : jsonParse "\x7b" = none := by rfl
  have h2 : jsonParse "1" = some (JVal.num (.fin ⟨1, 0⟩)) := by rfl
  exact ⟨(c7_sync_containment ⟨.str "keep", "x", none⟩ "\x7b").1 h1,
    (c7_sync_containment ⟨.str "keep", "x", none⟩ "1").2 (JVal.num (.fin ⟨1, 0⟩)) h2⟩

/-! ## C8: validation cycle clears markers on unparsable input -/

/-- C8: in every validation cycle, if the schema text or the document
text fails to parse, the entire marker set is replaced by the empty set
and the cycle ends without running any validator — stated for *every*
validator and range locator, so no marker can depend on them
(TextView.tsx validation `useEffect`). -/
theorem c8_validation_clears (schemaText docText : String)
    (runValidator : JVal → JVal → List VErr)
    (locate : String → List String → Option SourceRange)
    (h : jsonParse schemaText = none ∨ jsonParse docText = none) :
    validationCycle schemaText docText runValidator locate = [] := by
  unfold validationCycle
  cases hs : jsonParse schemaText with
  | none => rfl
  | some schema =>
    cases hd : jsonParse docText with
    | none => rfl
    | some data =>
      rcases h with h | h
      · rw [hs] at h; cases h
      · rw [hd] at h; cases h

/-- C8 witness: an unparsable schema text clears the markers even under a
validator that always reports a violation and a locator that always finds
a range. -/
theorem c8_validation_clears_witness :
    validationCycle "\x7b" "1"
      (fun _ _ => [⟨"/age", "minimum", "must be >= 18"⟩])
      (fun _ _ => some ⟨1, 1, 1, 2⟩) = [] :=
  c8_validation_clears "\x7b" "1" (fun _ _ => [⟨"/age", "minimum", "must be >= 18"⟩])
    (fun _ _ => some ⟨1, 1, 1, 2⟩) (Or.inl rfl)

/-! ## C9: parseLeaf round trip -/

/-- C9: for every finite number (canonical scaled decimal, as every
JavaScript number is), feeding its serialization `String(n)` back to
`parseInputValue` succeeds with exactly that number; and for every input
whose trimmed form is wrapped in double quotes, `parseInputValue` returns
the String of the characters between the quotes verbatim, with no escape
processing. -/
theorem c9_parseLeaf_roundtrip :
    (∀ d : DecNum, d.canon = d →
      parseInputValue (jsNumberToString (.fin d)) = ⟨true, .num (.fin d)⟩) ∧
    (∀ s : String, (jsTrim s).toList.head? = some '"' →
      (jsTrim s).toList.getLast? = some '"' →
      parseInputValue s = ⟨true, .str ⟨((jsTrim s).toList.drop 1).dropLast⟩⟩) := by
  constructor
  · intro d hc
    have hchars := mem_finToChars d
    have htrim : jsTrim ⟨finToChars d⟩ = ⟨finToChars d⟩ :=
      jsTrim_eq_self _ (fun c hc2 => isJsWs_false_of c (hchars c hc2))
    have hnum : jsStringToNumber ⟨finToChars d⟩ = .fin d := jsStringToNumber_print d hc
    simp only [parseInputValue]
    rw [show jsNumberToString (.fin d) = (⟨finToChars d⟩ : String) from rfl, htrim]
    rw [if_neg (printed_ne_word d "null" 'n' (by decide) (by decide) (by decide) (by decide)),
      if_neg (printed_ne_word d "true" 't' (by decide) (by decide) (by decide) (by decide)),
      if_neg (printed_ne_word d "false" 'f' (by decide) (by decide) (by decide) (by decide))]
    have hquote : ¬((String.toList ⟨finToChars d⟩).head? = some '"' ∧
        (String.toList ⟨finToChars d⟩).getLast? = some '"') := by
      rintro ⟨hA, -⟩
      rcases hchars '"' (mem_of_head?_eq hA) with hd | hd | hd
      · exact absurd hd (by decide)
      · exact absurd hd (by decide)
      · exact absurd hd (by decide)
    have hne : (⟨finToChars d⟩ : String) ≠ "" := by
      intro he
      exact absurd (congrArg String.toList he) (finToChars_ne_nil d)
    have hnan : (jsStringToNumber ⟨finToChars d⟩).isNaN = false := by rw [hnum]; rfl
    have hprint : jsNumberToString (jsStringToNumber ⟨finToChars d⟩) = (⟨finToChars d⟩ : String) := by
      rw [hnum]
      rfl
    rw [if_neg hquote, if_pos ⟨hne, hnan, hprint⟩, hnum]
  · intro s h1 h2
    simp only [parseInputValue]
    have hne1 : jsTrim s ≠ "null" := by
      intro he; rw [he] at h1; exact absurd h1 (by decide)
    have hne2 : jsTrim s ≠ "true" := by
      intro he; rw [he] at h1; exact absurd h1 (by decide)
    have hne3 : jsTrim s ≠ "false" := by
      intro he; rw [he] at h1; exact absurd h1 (by decide)
    rw [if_neg hne1, if_neg hne2, if_neg hne3, if_pos ⟨h1, h2⟩]

/-- C9 witness: the number `1.25` (canonical `125 / 10^2`) round-trips
through its printed form `"1.25"`, and `"abc"` in quotes parses to the
string `abc`. -/
theorem c9_parseLeaf_roundtrip_witness :
    parseInputValue (jsNumberToString (.fin ⟨125, 2⟩)) = ⟨true, .num (.fin ⟨125, 2⟩)⟩ ∧
    parseInputValue "\"abc\"" = ⟨true, .str "abc"⟩ :=
  ⟨c9_parseLeaf_roundtrip.1 ⟨125, 2⟩ (by decide),
   (c9_parseLeaf_roundtrip.2 "\"abc\"" rfl rfl).trans (by rfl)⟩

/-! ## C3: leaf-edit number grammar -/

/-- C3, counterexample.  The claim says non-finite tokens such as
`Infinity` are rejected; the code accepts `"Infinity"`, because
`isNaN(Number("Infinity"))` is false and `String(Number("Infinity"))`
reproduces `"Infinity"` exactly, so the guard in `parseInputValue`
passes and the committed value is the number Infinity. -/
theorem c3_number_grammar_counterexample :
    parseInputValue "Infinity" = ⟨true, .num (.inf false)⟩ := rfl

/-- C3, amended: `parseInputValue` accepts exactly the tokens that
re-serialize to themselves, which includes the non-finite `Infinity` and
`-Infinity`; leading zeros, `+` signs, hex, octal and `NaN` are rejected
with a tagged failure (never a throw), and on any failed parse
`commitChange` emits no update, leaving the prior value untouched. -/
theorem c3_number_grammar :
    parseInputValue "-Infinity" = ⟨true, .num (.inf true)⟩ ∧
    parseInputValue "05" = ⟨false, .null⟩ ∧
    parseInputValue "+5" = ⟨false, .null⟩ ∧
    parseInputValue "0x10" = ⟨false, .null⟩ ∧
    parseInputValue "0o10" = ⟨false, .null⟩ ∧
    parseInputValue "NaN" = ⟨false, .null⟩ ∧
    ∀ (node : FlattenedNode) (editValue : String),
      (parseInputValue editValue).success = false → commitChange node editValue = none := by
  refine ⟨rfl, rfl, rfl, rfl, rfl, rfl, ?_⟩
  intro node editValue h
  simp [commitChange, h]

/-- C3 witness: the rejected token `"abc"` leaves the node value alone —
`commitChange` emits no update. -/
theorem c3_number_grammar_witness :
    commitChange (mkFlatNode "a" (.num (.fin ⟨1, 0⟩)) [Seg.key "root", Seg.key "a"] 1) "abc"
      = none :=
  c3_number_grammar.2.2.2.2.2.2
    (mkFlatNode "a" (.num (.fin ⟨1, 0⟩)) [Seg.key "root", Seg.key "a"] 1) "abc" rfl

/-! ## C5: flattening is a pre-order traversal -/

/-- C5: for every value, flattening through the synthetic wrapper root
(key `"root"`, counted once) produces a list whose length is the total
node count of the value; every node's depth is the number of path
segments below the wrapper (its `path` field, which includes the wrapper
segment, is one longer); every node is immediately followed by exactly
its descendants, contiguously (positions `i+1 … i + size - 1` are the
recursive flattening of its value); and within those descendants the
immediate children appear in entry order — insertion order for objects,
increasing index order for arrays. -/
theorem c5_flatten_preorder (v : JVal) :
    (flattenedNodes v).length = sizeJVal v ∧
    (∀ n ∈ flattenedNodes v, n.path.length = n.depth + 1) ∧
    (∀ i n, (flattenedNodes v)[i]? = some n →
      i + sizeJVal n.value ≤ (flattenedNodes v).length ∧
      ((flattenedNodes v).drop (i + 1)).take (sizeJVal n.value - 1) =
        flattenJson n.value n.path (n.depth + 1)) ∧
    (∀ n ∈ flattenedNodes v, ∀ fs, n.value = .obj fs →
      ((flattenJson n.value n.path (n.depth + 1)).filter
          (fun m => m.depth == n.depth + 1)).map (fun m => m.key) =
        fs.map (fun kv => kv.1)) ∧
    (∀ n ∈ flattenedNodes v, ∀ xs, n.value = .arr xs →
      ((flattenJson n.value n.path (n.depth + 1)).filter
          (fun m => m.depth == n.depth + 1)).map (fun m => m.key) =
        (List.range' 0 xs.length).map natToString) := by
  refine ⟨?_, ?_, ?_, ?_, ?_⟩
  · have h1 := length_flattenFields [("root", v)] [] 0
    have h2 : sizeFields [("root", v)] = sizeJVal v := by simp [sizeFields]
    rw [flattenedNodes, show flattenJson (.obj [("root", v)]) [] 0 =
      flattenFields [("root", v)] [] 0 from rfl, h1, h2]
  · exact fun n hn => pathlen_flattenJson (.obj [("root", v)]) [] 0 rfl n hn
  · exact fun i n h => contig_flattenJson (.obj [("root", v)]) [] 0 i n h
  · intro n _ fs hfs
    rw [hfs]
    exact keys_flattenFields fs n.path (n.depth + 1)
  · intro n _ xs hxs
    rw [hxs]
    exact keys_flattenItems xs n.path (n.depth + 1) 0

/-- C5 witness: the document `{"a": 1, "b": [2, 3]}` flattens to 5 nodes
(its node count); the node at index 2 (the array at `root.b`) is followed
by exactly its two element rows in index order. -/
theorem c5_flatten_preorder_witness :
    (flattenedNodes (JVal.obj [("a", .num (.fin ⟨1, 0⟩)),
        ("b", .arr [.num (.fin ⟨2, 0⟩), .num (.fin ⟨3, 0⟩)])])).length =
      sizeJVal (JVal.obj [("a", .num (.fin ⟨1, 0⟩)),
        ("b", .arr [.num (.fin ⟨2, 0⟩), .num (.fin ⟨3, 0⟩)])]) ∧
    ((flattenedNodes (JVal.obj [("a", .num (.fin ⟨1, 0⟩)),
        ("b", .arr [.num (.fin ⟨2, 0⟩), .num (.fin ⟨3, 0⟩)])])).drop 3).take
        (sizeJVal (JVal.arr [.num (.fin ⟨2, 0⟩), .num (.fin ⟨3, 0⟩)]) - 1) =
      flattenJson (JVal.arr [.num (.fin ⟨2, 0⟩), .num (.fin ⟨3, 0⟩)])
        [Seg.key "root", Seg.key "b"] 2 := by
  have h := c5_flatten_preorder (JVal.obj [("a", .num (.fin ⟨1, 0⟩)),
    ("b", .arr [.num (.fin ⟨2, 0⟩), .num (.fin ⟨3, 0⟩)])])
  refine ⟨h.1, ?_⟩
  have h2 := (h.2.2.1 2 (mkFlatNode "b"
      (JVal.arr [.num (.fin ⟨2, 0⟩), .num (.fin ⟨3, 0⟩)])
      [Seg.key "root", Seg.key "b"] 1) (by rfl)).2
  exact h2

/-! ## C1: structural sharing of tree edits -/

/-- C1, counterexample.  The claim calls a path valid when every proper
prefix resolves to a composite.  The path `[2]` into the one-element
array `[5]` is valid in that sense (its only proper prefix is the root,
an array), yet the edit extends the array with a hole — serialized as
`null` — so the result `[5, null, 20]` differs from the original at the
untouched location `[1]`: the result is not "equal to v everywhere except
along p". -/
theorem c1_structural_sharing_counterexample :
    updateDataFromTree (.arr [.num (.fin ⟨5, 0⟩)]) [Seg.idx 2] (.num (.fin ⟨20, 0⟩))
      = .ok (.arr [.num (.fin ⟨5, 0⟩), .null, .num (.fin ⟨20, 0⟩)]) ∧
    resolvePath (.arr [.num (.fin ⟨5, 0⟩)]) [] = some (.arr [.num (.fin ⟨5, 0⟩)]) ∧
    resolvePath (.arr [.num (.fin ⟨5, 0⟩)]) [Seg.idx 1] = none ∧
    resolvePath (.arr [.num (.fin ⟨5, 0⟩), .null, .num (.fin ⟨20, 0⟩)]) [Seg.idx 1]
      = some .null :=
  ⟨rfl, rfl, rfl, rfl⟩

/-- C1, amended: for every document value, every nonempty path that
*fully resolves* in it (hence every proper prefix resolves to a
composite), and every leaf value, the tree-edit commit succeeds and
returns a new root in which the path now resolves to the new leaf, and
every subtree whose (string-coerced) path neither lies on the edited
path nor under it resolves exactly as in the original — the
structural-sharing frame property.  (Reference identity is not
observable in the embedding; immer guarantees the preserved subtrees are
the original references.) -/
theorem c1_structural_sharing (v : JVal) (p : List Seg) (x old : JVal)
    (hne : p ≠ []) (hres : resolvePath v p = some old) :
    ∃ w, updateDataFromTree v p x = .ok w ∧ resolvePath w p = some x ∧
      ∀ q : List Seg,
        underKeys (p.map segToKey) (q.map segToKey) = false →
        underKeys (q.map segToKey) (p.map segToKey) = false →
        resolvePath w q = resolvePath v q := by
  rcases p with _ | ⟨seg, rest⟩
  · exact absurd rfl hne
  · obtain ⟨w, hap, hres2, hframe⟩ := applyAt_spec rest seg v x old hres
    refine ⟨w, ?_, hres2, hframe⟩
    cases v with
    | obj fs => exact hap
    | arr xs => exact hap
    | null => cases (by simp [resolvePath_cons, jsGetVal] at hres : False)
    | bool b => cases (by simp [resolvePath_cons, jsGetVal] at hres : False)
    | num n => cases (by simp [resolvePath_cons, jsGetVal] at hres : False)
    | str st => cases (by simp [resolvePath_cons, jsGetVal] at hres : False)

/-- C1 witness: Scenario A.  Document `{"a": 1, "b": [2, 3]}`, path
`["b", 0]`, edit value `20` yields `{"a": 1, "b": [20, 3]}`, and the
subtree at `"a"` resolves as in the original. -/
theorem c1_structural_sharing_witness :
    updateDataFromTree
        (JVal.obj [("a", .num (.fin ⟨1, 0⟩)),
          ("b", .arr [.num (.fin ⟨2, 0⟩), .num (.fin ⟨3, 0⟩)])])
        [Seg.key "b", Seg.idx 0] (.num (.fin ⟨20, 0⟩)) =
      .ok (JVal.obj [("a", .num (.fin ⟨1, 0⟩)),
        ("b", .arr [.num (.fin ⟨20, 0⟩), .num (.fin ⟨3, 0⟩)])]) ∧
    resolvePath (JVal.obj [("a", .num (.fin ⟨1, 0⟩)),
        ("b", .arr [.num (.fin ⟨20, 0⟩), .num (.fin ⟨3, 0⟩)])]) [Seg.key "a"] =
      resolvePath (JVal.obj [("a", .num (.fin ⟨1, 0⟩)),
        ("b", .arr [.num (.fin ⟨2, 0⟩), .num (.fin ⟨3, 0⟩)])]) [Seg.key "a"] := by
  obtain ⟨w, h1, h2, h3⟩ := c1_structural_sharing
    (JVal.obj [("a", .num (.fin ⟨1, 0⟩)),
      ("b", .arr [.num (.fin ⟨2, 0⟩), .num (.fin ⟨3, 0⟩)])])
    [Seg.key "b", Seg.idx 0] (.num (.fin ⟨20, 0⟩)) (.num (.fin ⟨2, 0⟩))
    (by decide) rfl
  have he : updateDataFromTree
      (JVal.obj [("a", .num (.fin ⟨1, 0⟩)),
        ("b", .arr [.num (.fin ⟨2, 0⟩), .num (.fin ⟨3, 0⟩)])])
      [Seg.key "b", Seg.idx 0] (.num (.fin ⟨20, 0⟩)) =
      .ok (JVal.obj [("a", .num (.fin ⟨1, 0⟩)),
        ("b", .arr [.num (.fin ⟨20, 0⟩), .num (.fin ⟨3, 0⟩)])]) := rfl
  rw [he] at h1
  injection h1 with h1
  constructor
  · exact he
  · rw [h1]
    exact h3 [Seg.key "a"] (by decide) (by decide)

/-! ## C4: path-resolution faults -/

/-- C4, counterexample.  The claim says an edit with an empty path
returns the document unchanged and never mutates it; the code runs
`current[path[-1]] = value`, i.e. `current[undefined] = value`, which on
an object root adds the property named `"undefined"`. -/
theorem c4_path_fault_counterexample :
    updateDataFromTree (.obj [("a", .num (.fin ⟨1, 0⟩))]) [] (.num (.fin ⟨20, 0⟩))
      = .ok (.obj [("a", .num (.fin ⟨1, 0⟩)), ("undefined", .num (.fin ⟨20, 0⟩))]) ∧
    JVal.obj [("a", .num (.fin ⟨1, 0⟩)), ("undefined", .num (.fin ⟨20, 0⟩))] ≠
      JVal.obj [("a", .num (.fin ⟨1, 0⟩))] ∧
    updateDataFromTree (.obj [("a", .num (.fin ⟨1, 0⟩))])
      [Seg.key "a", Seg.key "b"] (.num (.fin ⟨20, 0⟩)) = .error () := by
  refine ⟨rfl, ?_, rfl⟩
  intro h
  injection h with h
  simp at h

/-- C4, amended: a non-composite root makes the edit a no-op returning
the original (the recipe returns early); an empty path on an object root
adds or overwrites the property `"undefined"` (a mutation); an empty
path on an array root leaves the JSON-visible document unchanged (the
expando property is invisible to serialization); and a nonempty path
some nonempty proper prefix of which does not resolve to a composite
makes the operation throw a TypeError (modelled as `.error`), so the
edit is not the silent local no-op the claim describes. -/
theorem c4_path_fault :
    (∀ (v x : JVal) (p : List Seg), hasChildrenOf v = false →
      updateDataFromTree v p x = .ok v) ∧
    (∀ (fs : List (String × JVal)) (x : JVal),
      updateDataFromTree (.obj fs) [] x = .ok (.obj (objSet fs "undefined" x))) ∧
    (∀ (xs : List JVal) (x : JVal),
      updateDataFromTree (.arr xs) [] x = .ok (.arr xs)) ∧
    (∀ (v x : JVal) (p : List Seg), hasChildrenOf v = true →
      (∃ k, 1 ≤ k ∧ k < p.length ∧ isCompositeO (resolvePath v (p.take k)) = false) →
      updateDataFromTree v p x = .error ()) := by
  refine ⟨?_, ?_, ?_, ?_⟩
  · intro v x p hv
    cases v with
    | obj fs => simp [hasChildrenOf] at hv
    | arr xs => simp [hasChildrenOf] at hv
    | null => cases p <;> rfl
    | bool b => cases p <;> rfl
    | num n => cases p <;> rfl
    | str st => cases p <;> rfl
  · intro fs x
    rfl
  · intro xs x
    rfl
  · rintro v x p hv ⟨k, hk1, hk2, hfail⟩
    rcases p with _ | ⟨seg, rest⟩
    · simp at hk2
    · have hk0 : ∃ k0, k0 < rest.length ∧
          isCompositeO (resolvePath v ((seg :: rest).take (k0 + 1))) = false := by
        refine ⟨k - 1, ?_, ?_⟩
        · simp only [List.length_cons] at hk2
          omega
        · rw [show k - 1 + 1 = k from by omega]
          exact hfail
      cases v with
      | obj fs => exact applyAt_error rest seg (.obj fs) x hk0
      | arr xs => exact applyAt_error rest seg (.arr xs) x hk0
      | null => simp [hasChildrenOf] at hv
      | bool b => simp [hasChildrenOf] at hv
      | num n => simp [hasChildrenOf] at hv
      | str st => simp [hasChildrenOf] at hv

/-- C4 witness: a null root is returned unchanged for any path; the
document `{"a": 1}` with the path `["a", "b"]` (whose prefix `["a"]`
resolves to the number 1, not a composite) makes the operation throw. -/
theorem c4_path_fault_witness :
    updateDataFromTree .null [Seg.key "a"] (.num (.fin ⟨20, 0⟩)) = .ok .null ∧
    updateDataFromTree (.arr [.null]) [] (.num (.fin ⟨20, 0⟩)) = .ok (.arr [.null]) ∧
    updateDataFromTree (.obj [("a", .num (.fin ⟨1, 0⟩))])
      [Seg.key "a", Seg.key "b"] (.num (.fin ⟨20, 0⟩)) = .error () :=
  ⟨c4_path_fault.1 .null (.num (.fin ⟨20, 0⟩)) [Seg.key "a"] rfl,
   c4_path_fault.2.2.1 [.null] (.num (.fin ⟨20, 0⟩)),
   c4_path_fault.2.2.2 (.obj [("a", .num (.fin ⟨1, 0⟩))]) (.num (.fin ⟨20, 0⟩))
     [Seg.key "a", Seg.key "b"] rfl ⟨1, by decide, by decide, rfl⟩⟩
